import Mathlib

/-!
The contract aaatrust: a two-phase escrow.

A shallow embedding of `src/aaatrust/aaatrust.cpp` (an EOSIO contract with the
actions `prepay`, `confirm` and `clearpayed` over one table `records`), and
theorems about it.

Layout: the data model, the host interface, the table primitives, the three
actions, sequences of calls and the escrow accounting, then lemmas and theorems.
-/

namespace aaatrust

/-! ## Data model -/

/-- An account name of the host chain: `account_name`, an unsigned 64-bit integer. -/
abbrev account_name := Nat

/-- The host library type `eosio::asset`: a signed 64-bit amount and a symbol code.
No arithmetic is done on either field by the contract. -/
structure asset where
  amount : Int
  symbol : Nat
  deriving DecidableEq, Repr

/-- The table row `struct item` (source lines 107-118). The source fields `from` and
`to` are spelled `from_` and `to_` because both words are reserved in Lean. -/
structure item where
  id : Nat
  from_ : account_name
  to_ : account_name
  price : asset
  create_time : Nat
  payed : Bool
  deriving DecidableEq, Repr

/-- The source member `primary_key()` of `item` (line 115). -/
def item.primary_key (r : item) : Nat := r.id

/-- The host library type `eosio::permission_level`. -/
structure permission_level where
  actor : account_name
  permission : Nat
  deriving DecidableEq, Repr

/-- The argument tuple `(from, to, quantity, memo)` packed by `std::make_tuple` for the
token contract's `transfer` action. -/
structure transfer_args where
  from_ : account_name
  to_ : account_name
  quantity : asset
  memo : String
  deriving DecidableEq, Repr

/-- The host library type `eosio::action` as the contract builds it: one authorisation,
the receiving contract, the action name and the packed arguments. -/
structure action where
  authorization : permission_level
  account : Nat
  name : Nat
  data : transfer_args
  deriving DecidableEq, Repr

/-- The ways an action of this contract aborts, one per failing site of the source. -/
inductive abort where
  /-- Line 43: `eosio_assert(price.is_valid(), "invalid price")`. -/
  | invalid_price
  /-- Line 44: `eosio_assert(price.amount > 0, "price must be positive")`. -/
  | price_not_positive
  /-- Line 46: `records.emplace` on a primary key that is already in the table. -/
  | duplicate_key (id : Nat)
  /-- Line 69: `eosio_assert(itr != records.end(), "unknown id")`. -/
  | unknown_id
  /-- Lines 71 and 86: `require_auth(a)` when the action lacks the authority of `a`. -/
  | missing_auth (a : account_name)
  /-- Line 72: `eosio_assert(!itr->payed, "already payed for id: " + to_string(id))`. -/
  | already_payed (id : Nat)
  /-- The table was handed its end iterator where an element is required. -/
  | end_iterator
  deriving DecidableEq, Repr

/-- The error kinds the specification names. -/
inductive error_kind where
  | InvalidAmount
  | DuplicateKey
  | NotFound
  | AlreadyPaid
  | Unauthorized
  | IteratorMisuse
  deriving DecidableEq, Repr

/-- The specification's name for each failing site of the source. -/
def abort.kind : abort → error_kind
  | .invalid_price => .InvalidAmount
  | .price_not_positive => .InvalidAmount
  | .duplicate_key _ => .DuplicateKey
  | .unknown_id => .NotFound
  | .missing_auth _ => .Unauthorized
  | .already_payed _ => .AlreadyPaid
  | .end_iterator => .IteratorMisuse

/-- The observable effects of an action, in the order the code performs them. -/
inductive effect where
  /-- A row was stored by `records.emplace`. -/
  | db_store (r : item)
  /-- The row at an iterator was rewritten by `records.modify`; `r` is the new row. -/
  | db_update (r : item)
  /-- A row was removed by `records.erase`. -/
  | db_remove (r : item)
  /-- An inline action was sent by `action(...).send()`. -/
  | send (a : action)
  deriving DecidableEq, Repr

/-! ## Host interface -/

/-- What the contract takes from the host and the eosio library, whose code is not part
of the repository: the contract's own account `_self`, the value of `current_time()`,
the authorities the running action carries (`require_auth`), the predicate
`asset::is_valid()` and the name-encoding macro `N(...)`. -/
structure host where
  self : account_name
  current_time : Nat
  has_auth : account_name → Bool
  is_valid : asset → Bool
  N : String → Nat

/-- The state an action runs on: the rows of the table `records`, in iteration order,
and the effects performed so far. -/
structure chain where
  records : List item
  trace : List effect
  deriving DecidableEq, Repr

/-- A computation of the contract: it ends normally or aborts, and in both cases leaves
the state it reached (the host's rollback of an aborted action is not applied here, so
a theorem that an aborted action leaves the state unchanged is a statement about the
order of checks and writes in the code). -/
def Tx (α : Type) := chain → Except abort α × chain

/-- Sequencing: the second computation runs only if the first ended normally. -/
def Tx.bind {α β : Type} (m : Tx α) (f : α → Tx β) : Tx β := fun s =>
  match m s with
  | (.ok a, s1) => f a s1
  | (.error e, s1) => (.error e, s1)

instance : Monad Tx where
  pure a := fun s => (.ok a, s)
  bind := Tx.bind

/-- The host call `eosio_assert(cond, msg)`: abort with the site's failure when `cond` is false. -/
def eosio_assert (cond : Bool) (e : abort) : Tx Unit := fun s =>
  if cond then (.ok (), s) else (.error e, s)

/-- The host call `require_auth(a)`: abort unless the action carries the authority of `a`. -/
def require_auth (h : host) (a : account_name) : Tx Unit := fun s =>
  if h.has_auth a then (.ok (), s) else (.error (.missing_auth a), s)

/-- The member `action::send()`: the inline action is appended to the effects. -/
def send_inline (a : action) : Tx Unit := fun s =>
  (.ok (), { s with trace := s.trace ++ [.send a] })

/-- The C++ library function `std::to_string` on an unsigned integer: its decimal digits. -/
def to_string (n : Nat) : String := Nat.repr n

/-! ## The table `records`

`eosio::multi_index` is declared by the eosio library, not by the repository. -/

/-- Modelled from the spec: `eosio::multi_index` is not under src/. The rows are kept
in iteration order ("deterministic ascending order by id"); a new row goes in front of
the first row with a greater key. -/
def ordered_insert (r : item) : List item → List item
  | [] => [r]
  | x :: xs => if r.primary_key < x.primary_key then r :: x :: xs else x :: ordered_insert r xs

/-- Modelled from the spec: `eosio::multi_index::emplace` is not under src/. "insert:
fails with DuplicateKey if record.id already present. Side effect: persists the record." -/
def records_emplace (r : item) : Tx Unit := fun s =>
  if s.records.any (fun x => x.primary_key == r.primary_key) then
    (.error (.duplicate_key r.primary_key), s)
  else
    (.ok (), { records := ordered_insert r s.records, trace := s.trace ++ [.db_store r] })

/-- The row an iterator stands at, when the iterator is a position in `rs`. -/
def row_at (rs : List item) (itr : Nat) : Option item := rs[itr]?

/-- The position `records.find(id)` returns on the rows `rs`: that of the row with
primary key `id`, or the length of `rs` (the end iterator) if there is none. -/
def find_pos (rs : List item) (id : Nat) : Nat :=
  rs.findIdx (fun x => x.primary_key == id)

/-- The row with primary key `id` in `rs`, if any: `records.find(id)` read through. -/
def find_record (rs : List item) (id : Nat) : Option item := row_at rs (find_pos rs id)

/-- Modelled from the spec: `eosio::multi_index::find` is not under src/. "find(id):
returns a handle for mutation/inspection or none." An iterator is the position of a row
in iteration order; the end iterator is the number of rows. -/
def records_find (id : Nat) : Tx Nat := fun s => (.ok (find_pos s.records id), s)

/-- Modelled from the spec: `eosio::multi_index::end` is not under src/. The iterator
past the last row. -/
def records_end : Tx Nat := fun s => (.ok s.records.length, s)

/-- Reading through an iterator (`itr->field`): the row at that position. At the end
iterator there is no row to read and the computation aborts. -/
def deref (itr : Nat) : Tx item := fun s =>
  match row_at s.records itr with
  | some r => (.ok r, s)
  | none => (.error .end_iterator, s)

/-- Modelled from the spec: `eosio::multi_index::modify` is not under src/. "modify(handle,
mutator): applies an in-place mutation to a stored record; does not change its primary
key." -/
def records_modify (itr : Nat) (mutator : item → item) : Tx Unit := fun s =>
  match row_at s.records itr with
  | some r =>
    (.ok (), { records := s.records.set itr (mutator r),
               trace := s.trace ++ [.db_update (mutator r)] })
  | none => (.error .end_iterator, s)

/-- Modelled from the spec: `eosio::multi_index::erase` is not under src/. "erase(handle)
-> next handle": the row at position `i` is removed and the returned iterator stands at
the row that followed it, which is now at position `i`. -/
def records_erase (i : Nat) (s : chain) : Nat × chain :=
  match row_at s.records i with
  | some r => (i, { records := s.records.eraseIdx i, trace := s.trace ++ [.db_remove r] })
  | none => (i, s)

/-! ## The actions -/

/-- The action `prepay` (source lines 41-60). -/
def prepay (h : host) (id : Nat) (from_ to_ : account_name) (price : asset) : Tx Unit := do
  eosio_assert (h.is_valid price) .invalid_price
  eosio_assert (decide (price.amount > 0)) .price_not_positive
  records_emplace
    { id := id, from_ := from_, to_ := to_, price := price,
      create_time := h.current_time, payed := false }
  send_inline
    { authorization := { actor := from_, permission := h.N "active" },
      account := h.N "eosio.token", name := h.N "transfer",
      data := { from_ := from_, to_ := h.self, quantity := price,
                memo := "prepay_for_id:" ++ to_string id } }

/-- The action `confirm` (source lines 67-83). -/
def confirm (h : host) (id : Nat) : Tx Unit := do
  let itr ← records_find id
  eosio_assert (itr != (← records_end)) .unknown_id
  let r ← deref itr
  require_auth h r.from_
  eosio_assert (!r.payed) (.already_payed r.id)
  records_modify itr (fun record => { record with payed := true })
  let r ← deref itr
  send_inline
    { authorization := { actor := h.self, permission := h.N "active" },
      account := h.N "eosio.token", name := h.N "transfer",
      data := { from_ := h.self, to_ := r.to_, quantity := r.price,
                memo := "confirm_for_id:" ++ to_string r.id } }

/-- The loop of `clearpayed` (source lines 87-93) from iterator position `itr` on:
the test `itr != records.end()` is `itr < length`, a position never being past the
end; a paid row is erased and the iterator takes the value `records.erase` returns, an
unpaid row is stepped over by `itr++`. The recursion is well-founded on the number of
rows from `itr` on, so the loop is total. -/
def clearpayed_loop (itr : Nat) (s : chain) : chain :=
  if hlt : itr < s.records.length then
    if (s.records.get ⟨itr, hlt⟩).payed then
      clearpayed_loop (records_erase itr s).1 (records_erase itr s).2
    else
      clearpayed_loop (itr + 1) s
  else s
termination_by s.records.length - itr
decreasing_by
  all_goals simp_wf
  · simp only [records_erase, row_at, List.getElem?_eq_getElem hlt, List.length_eraseIdx, hlt, if_true]
    omega
  · omega

/-- The action `clearpayed` (source lines 85-94); `records.begin()` is position 0. -/
def clearpayed (h : host) : Tx Unit := do
  require_auth h h.self
  fun s => (.ok (), clearpayed_loop 0 s)

/-! ## Observers used in the statements -/

deriving instance DecidableEq for Except

/-- The inline actions among a list of effects, in the order they were sent. -/
def sent (t : List effect) : List action :=
  t.filterMap (fun e => match e with
    | .send a => some a
    | _ => none)

/-- The keys of the rows are strictly ascending in iteration order. -/
def keys_ascending (rs : List item) : Prop :=
  List.Pairwise (fun a b => a < b) (rs.map item.primary_key)

instance (rs : List item) : Decidable (keys_ascending rs) := by
  unfold keys_ascending; infer_instance

/-! ## A concrete host

The eosio library's own definitions of `N(...)` and `asset::is_valid()`, written out so
that the statements below can be evaluated on concrete inputs. The theorems hold for
every `host`; only their instances at concrete inputs use these. -/

/-- The eosio library function `char_to_symbol` on a character code: `a`-`z` map to
6-31, `1`-`5` to 1-5, everything else to 0. -/
def char_to_symbol (c : Nat) : Nat :=
  if 97 ≤ c ∧ c ≤ 122 then (c - 97) + 6
  else if 49 ≤ c ∧ c ≤ 53 then (c - 49) + 1
  else 0

/-- The eosio library function `string_to_name` behind the macro `N(...)`: twelve
5-bit characters from the top of a 64-bit word and a thirteenth of 4 bits. -/
def string_to_name (str : String) : Nat :=
  (List.range 13).foldl (fun value i =>
    let c := match str.toList[i]? with
      | some ch => char_to_symbol ch.toNat
      | none => 0
    value ||| (if i < 12 then (c &&& 0x1f) <<< (64 - 5 * (i + 1)) else c &&& 0x0f)) 0

/-- The tail of the eosio library function `is_valid_symbol`: `n` further bytes of the
symbol code must all be zero. -/
def symbol_zero_bytes : Nat → Nat → Bool
  | 0, _ => true
  | n + 1, sym => if (sym >>> 8) &&& 0xff ≠ 0 then false else symbol_zero_bytes n (sym >>> 8)

/-- The eosio library function `is_valid_symbol`, after the precision byte has been
shifted out, with `n` of its seven positions left: upper-case letters, then zero bytes. -/
def symbol_letters : Nat → Nat → Bool
  | 0, _ => true
  | n + 1, sym =>
    let c := sym &&& 0xff
    if ¬ (65 ≤ c ∧ c ≤ 90) then false
    else if (sym >>> 8) &&& 0xff = 0 then symbol_zero_bytes (n + 1) (sym >>> 8)
    else symbol_letters n (sym >>> 8)

/-- The eosio library member `asset::is_valid()`: the amount lies within
`±(2^62 - 1)` and the symbol code is a valid symbol. -/
def asset_is_valid (a : asset) : Bool :=
  decide (-(2 ^ 62 - 1 : Int) ≤ a.amount ∧ a.amount ≤ 2 ^ 62 - 1) && symbol_letters 7 (a.symbol >>> 8)

/-- A host for a contract deployed on the account `aaatrust`, running an action that
carries the authorities `auths`. -/
def example_host (auths : List account_name) : host :=
  { self := string_to_name "aaatrust"
    current_time := 1540000000000000
    has_auth := fun a => auths.contains a
    is_valid := asset_is_valid
    N := string_to_name }

/-- The account `alice`. -/
def alice : account_name := string_to_name "alice"

/-- The account `bob`. -/
def bob : account_name := string_to_name "bob"

/-- The account `carol`. -/
def carol : account_name := string_to_name "carol"

/-- The asset `x` hundredths of `TOK`: precision 2, symbol name `TOK`. -/
def TOK (x : Int) : asset := { amount := x, symbol := 1263490050 }

/-- A row as `prepay` writes it under `example_host`. -/
def example_row (id : Nat) (buyer seller : account_name) (price : asset) (payed : Bool) : item :=
  { id := id, from_ := buyer, to_ := seller, price := price,
    create_time := 1540000000000000, payed := payed }

/-- The `transfer` action on `eosio.token` as the contract builds it under `example_host`. -/
def example_transfer (auth from_ to_ : account_name) (quantity : asset) (memo : String) : action :=
  { authorization := { actor := auth, permission := string_to_name "active" },
    account := string_to_name "eosio.token", name := string_to_name "transfer",
    data := { from_ := from_, to_ := to_, quantity := quantity, memo := memo } }

/-- The state after `prepay(1, alice, bob, 10.00 TOK)` on the empty state. -/
def example_after_prepay : chain :=
  { records := [example_row 1 alice bob (TOK 1000) false],
    trace := [.db_store (example_row 1 alice bob (TOK 1000) false),
              .send (example_transfer alice alice (string_to_name "aaatrust") (TOK 1000)
                "prepay_for_id:1")] }

/-- The state after `confirm(1)` by `alice` on `example_after_prepay`. -/
def example_after_confirm : chain :=
  { records := [example_row 1 alice bob (TOK 1000) true],
    trace := example_after_prepay.trace ++
      [.db_update (example_row 1 alice bob (TOK 1000) true),
       .send (example_transfer (string_to_name "aaatrust") (string_to_name "aaatrust") bob
         (TOK 1000) "confirm_for_id:1")] }

/-- A state with six rows, keys 1 to 6: paid at 1, 2, 4 and 5, unpaid at 3 and 6. -/
def example_mixed : chain :=
  { records :=
      [example_row 1 alice bob (TOK 100) true, example_row 2 alice bob (TOK 200) true,
       example_row 3 alice carol (TOK 300) false, example_row 4 bob carol (TOK 400) true,
       example_row 5 carol bob (TOK 500) true, example_row 6 bob alice (TOK 600) false],
    trace := [] }

/-! ## Sequences of calls -/

/-- What changes from one call to the next: the time the host reports and the
authorities the action carries. The contract's account and the eosio library stay. -/
structure caller where
  current_time : Nat
  has_auth : account_name → Bool

/-- The host as one call sees it. -/
def host.with_caller (h : host) (c : caller) : host :=
  { h with current_time := c.current_time, has_auth := c.has_auth }

/-- A call of one of the three actions the contract exports (source line 124), with
its arguments and the caller's context. -/
inductive call where
  | prepay (c : caller) (id : Nat) (from_ to_ : account_name) (price : asset)
  | confirm (c : caller) (id : Nat)
  | clearpayed (c : caller)

/-- The action a call runs. -/
def call.run (h : host) : call → Tx Unit
  | .prepay c id from_ to_ price => aaatrust.prepay (h.with_caller c) id from_ to_ price
  | .confirm c id => aaatrust.confirm (h.with_caller c) id
  | .clearpayed c => aaatrust.clearpayed (h.with_caller c)

/-- The state a call leaves, whether it ends normally or aborts: the state its run
reached. -/
def step (h : host) (s : chain) (c : call) : chain := (c.run h s).2

/-- The state a sequence of calls leaves, each call running on the state the one before
it left. -/
def run_calls (h : host) (s : chain) (cs : List call) : chain := cs.foldl (step h) s

/-- The state of a freshly deployed contract: no rows, no effects. -/
def empty_chain : chain := { records := [], trace := [] }

/-- The effects a run added, when it took the state from `s` to `s1`. -/
def new_effects (s s1 : chain) : List effect := s1.trace.drop s.trace.length

/-- The rows after one logged effect, from the rows before it: a store inserts in key
order, an update rewrites the row with the same primary key, a removal erases the row
with that primary key, a sent action leaves the rows alone. -/
def apply_effect (rs : List item) : effect → List item
  | .db_store r => ordered_insert r rs
  | .db_update r => rs.set (find_pos rs r.primary_key) r
  | .db_remove r => rs.eraseIdx (find_pos rs r.primary_key)
  | .send _ => rs

/-- The rows after a list of logged effects, in order. -/
def replay (rs : List item) (es : List effect) : List item := es.foldl apply_effect rs

/-- The row with `payed` set, if its key is among `ids`; the row itself otherwise. -/
def mark_paid (ids : List Nat) (r : item) : item :=
  if r.id ∈ ids then { r with payed := true } else r

/-- The arguments of one `prepay` call. -/
structure prepay_args where
  c : caller
  id : Nat
  from_ : account_name
  to_ : account_name
  price : asset

/-- The call `prepay` with these arguments. -/
def prepay_args.call (p : prepay_args) : call := .prepay p.c p.id p.from_ p.to_ p.price

/-- The row `prepay` writes for these arguments. -/
def prepay_args.row (p : prepay_args) : item :=
  { id := p.id, from_ := p.from_, to_ := p.to_, price := p.price,
    create_time := p.c.current_time, payed := false }

/-- The arguments of one `confirm` call. -/
structure confirm_args where
  c : caller
  id : Nat

/-- The call `confirm` with these arguments. -/
def confirm_args.call (q : confirm_args) : call := .confirm q.c q.id

/-! ## Escrow accounting -/

/-- The amount of an asset if it is in the currency `sym`, else 0, as an unbounded integer. -/
def amount_in (sym : Nat) (q : asset) : Int := if q.symbol = sym then q.amount else 0

/-- The total of a list of assets in the currency `sym`, over unbounded integers. -/
def total_in (sym : Nat) (qs : List asset) : Int := (qs.map (amount_in sym)).sum

/-- The total price, in the currency `sym`, of the rows with `payed = false`. -/
def escrowed (sym : Nat) (rs : List item) : Int :=
  total_in sym ((rs.filter (fun r => !r.payed)).map (fun r => r.price))

/-- The quantities of the inline actions a run sent, when it took the state from `s` to `s1`. -/
def sent_quantities (s s1 : chain) : List asset :=
  ((sent s1.trace).drop (sent s.trace).length).map (fun a => a.data.quantity)

/-- The state together with the quantities of the transfers requested so far: by
`prepay` calls that ended normally (deposits) and by `confirm` calls that ended
normally (payouts). -/
structure ledger where
  state : chain
  deposits : List asset
  payouts : List asset

/-- One call on a ledger: the state moves as in `step`, and the quantities the call
sent are added to the deposits if it was a `prepay` that ended normally, to the
payouts if it was a `confirm` that ended normally. -/
def ledger.step (h : host) (l : ledger) (c : call) : ledger :=
  match c, c.run h l.state with
  | .prepay _ _ _ _ _, (.ok _, s1) =>
    { state := s1, deposits := l.deposits ++ sent_quantities l.state s1, payouts := l.payouts }
  | .confirm _ _, (.ok _, s1) =>
    { state := s1, deposits := l.deposits, payouts := l.payouts ++ sent_quantities l.state s1 }
  | _, (_, s1) => { state := s1, deposits := l.deposits, payouts := l.payouts }

/-- A sequence of calls on a ledger. -/
def ledger.run (h : host) (l : ledger) (cs : List call) : ledger := cs.foldl (ledger.step h) l

/-- The ledger of a freshly deployed contract. -/
def empty_ledger : ledger := { state := empty_chain, deposits := [], payouts := [] }

/-- The caller context of `example_host auths`. -/
def example_caller (auths : List account_name) : caller :=
  { current_time := 1540000000000000, has_auth := fun a => auths.contains a }

/-! ## Lemmas on the monad and the table -/

theorem Tx.bind_apply {α β : Type} (m : Tx α) (f : α → Tx β) (s : chain) :
    (m >>= f) s = match m s with
      | (.ok a, s1) => f a s1
      | (.error e, s1) => (.error e, s1) := rfl

theorem find_record_eq_find (rs : List item) (id : Nat) :
    find_record rs id = rs.find? (fun x => x.primary_key == id) := by
  induction rs with
  | nil => rfl
  | cons x xs ih =>
    by_cases hx : x.primary_key = id
    · simp [find_record, find_pos, row_at, List.findIdx_cons, hx]
    · have hb : (x.primary_key == id) = false := by simpa using hx
      simp only [find_record, find_pos, row_at] at ih
      simp [find_record, find_pos, row_at, List.findIdx_cons, hb, ih]

theorem find_record_key {rs : List item} {id : Nat} {r : item}
    (hr : find_record rs id = some r) : r.id = id := by
  rw [find_record_eq_find] at hr
  have := List.find?_some hr
  simpa [item.primary_key] using this

theorem find_record_mem {rs : List item} {id : Nat} {r : item}
    (hr : find_record rs id = some r) : r ∈ rs := by
  rw [find_record_eq_find] at hr
  exact List.mem_of_find?_eq_some hr

theorem find_record_none_iff (rs : List item) (id : Nat) :
    find_record rs id = none ↔ ∀ r ∈ rs, r.id ≠ id := by
  rw [find_record_eq_find]
  simp [item.primary_key]

theorem any_key_eq_isSome (rs : List item) (id : Nat) :
    rs.any (fun x => x.primary_key == id) = (find_record rs id).isSome := by
  rw [find_record_eq_find]
  induction rs with
  | nil => rfl
  | cons x xs ih =>
    by_cases hx : x.primary_key = id
    · simp [List.find?_cons, hx]
    · have hb : (x.primary_key == id) = false := by simpa using hx
      simp [List.find?_cons, hb, ih]

theorem ordered_insert_perm (r : item) (rs : List item) :
    (ordered_insert r rs).Perm (r :: rs) := by
  induction rs with
  | nil => exact List.Perm.refl _
  | cons x xs ih =>
    unfold ordered_insert
    split
    · exact List.Perm.refl _
    · exact (List.Perm.cons x ih).trans (List.Perm.swap r x xs)

theorem ordered_insert_sublist (r : item) (rs : List item) :
    rs.Sublist (ordered_insert r rs) := by
  induction rs with
  | nil => exact List.nil_sublist _
  | cons x xs ih =>
    unfold ordered_insert
    split
    · exact List.sublist_cons_self _ _
    · exact List.Sublist.cons₂ x ih

theorem find_record_ordered_insert_self (r : item) (rs : List item)
    (hfresh : find_record rs r.id = none) :
    find_record (ordered_insert r rs) r.id = some r := by
  rw [find_record_eq_find] at hfresh ⊢
  induction rs with
  | nil => simp [ordered_insert, item.primary_key]
  | cons x xs ih =>
    have hx : (x.primary_key == r.id) = false := by
      by_contra hc
      simp [List.find?_cons, hc] at hfresh
    have hxs : List.find? (fun y => y.primary_key == r.id) xs = none := by
      simpa [List.find?_cons, hx] using hfresh
    unfold ordered_insert
    split
    · simp [List.find?_cons, item.primary_key]
    · simp [List.find?_cons, hx, ih hxs]

theorem find_record_ordered_insert_other (r : item) (rs : List item) (k : Nat)
    (hk : k ≠ r.id) :
    find_record (ordered_insert r rs) k = find_record rs k := by
  rw [find_record_eq_find, find_record_eq_find]
  have hr : (r.primary_key == k) = false := by
    simpa [item.primary_key] using (Ne.symm hk)
  induction rs with
  | nil => simp [ordered_insert, List.find?_cons, hr]
  | cons x xs ih =>
    unfold ordered_insert
    split
    · simp [List.find?_cons, hr]
    · simp [List.find?_cons, ih]

/-- What `prepay` does, case by case, in the order the code decides. -/
theorem prepay_eq (h : host) (id : Nat) (from_ to_ : account_name) (price : asset) (s : chain) :
    prepay h id from_ to_ price s =
      if h.is_valid price = false then (.error .invalid_price, s)
      else if price.amount ≤ 0 then (.error .price_not_positive, s)
      else if (find_record s.records id).isSome then (.error (.duplicate_key id), s)
      else (.ok (),
        { records := ordered_insert
            { id := id, from_ := from_, to_ := to_, price := price,
              create_time := h.current_time, payed := false } s.records,
          trace := s.trace ++
            [.db_store { id := id, from_ := from_, to_ := to_, price := price,
                         create_time := h.current_time, payed := false },
             .send { authorization := { actor := from_, permission := h.N "active" },
                     account := h.N "eosio.token", name := h.N "transfer",
                     data := { from_ := from_, to_ := h.self, quantity := price,
                               memo := "prepay_for_id:" ++ to_string id } }] }) := by
  by_cases hv : h.is_valid price = true
  · by_cases hp : price.amount > 0
    · have hp2 : ¬ price.amount ≤ 0 := by omega
      by_cases hd : (find_record s.records id).isSome = true
      · have hany : s.records.any (fun x => x.primary_key == id) = true := by
          rw [any_key_eq_isSome]; exact hd
        have hex : ∃ x ∈ s.records, x.id = id := by simpa [item.primary_key] using hany
        simp [prepay, Tx.bind_apply, eosio_assert, records_emplace, hv, hp, hp2, hd, hex,
          item.primary_key]
      · have hany : s.records.any (fun x => x.primary_key == id) = false := by
          rw [any_key_eq_isSome]; simpa using hd
        have hex : ¬ ∃ x ∈ s.records, x.id = id := by simpa [item.primary_key] using hany
        simp [prepay, Tx.bind_apply, eosio_assert, records_emplace, send_inline, hv, hp, hp2, hd,
          hex, item.primary_key]
    · have hp2 : price.amount ≤ 0 := by omega
      simp [prepay, Tx.bind_apply, eosio_assert, hv, hp, hp2]
  · have hv2 : h.is_valid price = false := by simpa using hv
    simp [prepay, Tx.bind_apply, eosio_assert, hv2]

/-- The normal run of `prepay`: the state it produces. -/
theorem prepay_ok (h : host) (id : Nat) (from_ to_ : account_name) (price : asset) (s : chain)
    (hfresh : find_record s.records id = none)
    (hvalid : h.is_valid price = true) (hpos : price.amount > 0) :
    prepay h id from_ to_ price s =
      (.ok (),
        { records := ordered_insert
            { id := id, from_ := from_, to_ := to_, price := price,
              create_time := h.current_time, payed := false } s.records,
          trace := s.trace ++
            [.db_store { id := id, from_ := from_, to_ := to_, price := price,
                         create_time := h.current_time, payed := false },
             .send { authorization := { actor := from_, permission := h.N "active" },
                     account := h.N "eosio.token", name := h.N "transfer",
                     data := { from_ := from_, to_ := h.self, quantity := price,
                               memo := "prepay_for_id:" ++ to_string id } }] }) := by
  have hp2 : ¬ price.amount ≤ 0 := by omega
  rw [prepay_eq]
  simp [hvalid, hfresh, hp2]

/-! ## prepay -/

/-- C1: on a store with no record under `id`, `prepay` with a valid price of positive
amount ends normally; looking `id` up in the resulting store gives the record with
exactly the given id, buyer, seller and price, the host's current time as `create_time`
and `payed = false`; the resulting rows are the old rows plus that one, the old rows
keep their order, and every other key looks up as before. -/
theorem prepay_creates_record (h : host) (id : Nat) (buyer seller : account_name)
    (price : asset) (s : chain)
    (hfresh : find_record s.records id = none)
    (hvalid : h.is_valid price = true) (hpos : price.amount > 0) :
    ∃ s1, prepay h id buyer seller price s = (.ok (), s1) ∧
      find_record s1.records id =
        some { id := id, from_ := buyer, to_ := seller, price := price,
               create_time := h.current_time, payed := false } ∧
      s1.records.Perm
        ({ id := id, from_ := buyer, to_ := seller, price := price,
           create_time := h.current_time, payed := false } :: s.records) ∧
      s.records.Sublist s1.records ∧
      (∀ r ∈ s.records, r ∈ s1.records) ∧
      (∀ k, k ≠ id → find_record s1.records k = find_record s.records k) := by
  refine ⟨_, prepay_ok h id buyer seller price s hfresh hvalid hpos, ?_, ?_, ?_, ?_, ?_⟩
  · exact find_record_ordered_insert_self
      { id := id, from_ := buyer, to_ := seller, price := price,
        create_time := h.current_time, payed := false } s.records hfresh
  · exact ordered_insert_perm _ _
  · exact ordered_insert_sublist _ _
  · intro r hr
    exact (ordered_insert_sublist _ _).subset hr
  · intro k hk
    exact find_record_ordered_insert_other _ _ k hk

/-- C1 at a concrete input: `prepay(1, alice, bob, 10.00 TOK)` on a store holding
one record under key 2. -/
theorem prepay_creates_record_witness :
    ∃ s1, prepay (example_host []) 1 alice bob (TOK 1000)
        { records := [example_row 2 carol bob (TOK 500) true], trace := [] } = (.ok (), s1) ∧
      find_record s1.records 1 =
        some { id := 1, from_ := alice, to_ := bob, price := TOK 1000,
               create_time := (example_host []).current_time, payed := false } ∧
      s1.records.Perm
        ({ id := 1, from_ := alice, to_ := bob, price := TOK 1000,
           create_time := (example_host []).current_time, payed := false } ::
          [example_row 2 carol bob (TOK 500) true]) ∧
      [example_row 2 carol bob (TOK 500) true].Sublist s1.records ∧
      (∀ r ∈ [example_row 2 carol bob (TOK 500) true], r ∈ s1.records) ∧
      (∀ k, k ≠ 1 → find_record s1.records k =
        find_record [example_row 2 carol bob (TOK 500) true] k) :=
  prepay_creates_record (example_host []) 1 alice bob (TOK 1000)
    { records := [example_row 2 carol bob (TOK 500) true], trace := [] }
    (by decide) (by decide) (by decide)

/-- C2: if the price is malformed or its amount is not positive, `prepay` aborts with
`InvalidAmount` (the assert on `is_valid` if that fails, else the assert on the amount)
and the state it leaves is the state it was given: no row written, no transfer sent. The store is arbitrary, so this holds also when `id` is already
present (the amount checks come before the insert). -/
theorem prepay_invalid_amount (h : host) (id : Nat) (buyer seller : account_name)
    (price : asset) (s : chain)
    (hbad : h.is_valid price = false ∨ price.amount ≤ 0) :
    ∃ e, prepay h id buyer seller price s = (.error e, s) ∧
      e.kind = error_kind.InvalidAmount ∧
      e = (if h.is_valid price = false then .invalid_price else .price_not_positive) := by
  rw [prepay_eq]
  by_cases hv : h.is_valid price = false
  · exact ⟨.invalid_price, by simp [hv], rfl, by simp [hv]⟩
  · have hp : price.amount ≤ 0 := hbad.resolve_left hv
    exact ⟨.price_not_positive, by simp [hv, hp], rfl, by simp [hv]⟩

/-- C2 at a concrete input: a price of amount 0, on a store that already holds `id`. -/
theorem prepay_invalid_amount_witness :
    ∃ e, prepay (example_host [alice]) 2 alice bob (TOK 0)
        { records := [example_row 2 carol bob (TOK 500) false], trace := [] } =
          (.error e, { records := [example_row 2 carol bob (TOK 500) false], trace := [] }) ∧
      e.kind = error_kind.InvalidAmount ∧
      e = (if (example_host [alice]).is_valid (TOK 0) = false then .invalid_price
           else .price_not_positive) :=
  prepay_invalid_amount (example_host [alice]) 2 alice bob (TOK 0)
    { records := [example_row 2 carol bob (TOK 500) false], trace := [] }
    (Or.inr (by decide))

/-- C3: on a store that holds a record `r` under `id`, `prepay` with a valid price of
positive amount aborts with `DuplicateKey`; the state it leaves is the state it was
given, so `r` is still what `id` looks up to, no other row changed and no transfer was
sent. -/
theorem prepay_duplicate_key (h : host) (id : Nat) (buyer seller : account_name)
    (price : asset) (s : chain) (r : item)
    (hpresent : find_record s.records id = some r)
    (hvalid : h.is_valid price = true) (hpos : price.amount > 0) :
    ∃ e s1, prepay h id buyer seller price s = (.error e, s1) ∧
      e.kind = error_kind.DuplicateKey ∧ e = .duplicate_key id ∧ s1 = s ∧
      find_record s1.records id = some r ∧ sent s1.trace = sent s.trace := by
  have hp2 : ¬ price.amount ≤ 0 := by omega
  refine ⟨.duplicate_key id, s, ?_, rfl, rfl, rfl, hpresent, rfl⟩
  rw [prepay_eq]
  simp [hvalid, hp2, hpresent]

/-- C3 at a concrete input: a second `prepay` under key 2 with other parties and price. -/
theorem prepay_duplicate_key_witness :
    ∃ e s1, prepay (example_host [alice]) 2 alice carol (TOK 1000)
        { records := [example_row 2 carol bob (TOK 500) true], trace := [] } = (.error e, s1) ∧
      e.kind = error_kind.DuplicateKey ∧ e = .duplicate_key 2 ∧
      s1 = { records := [example_row 2 carol bob (TOK 500) true], trace := [] } ∧
      find_record s1.records 2 = some (example_row 2 carol bob (TOK 500) true) ∧
      sent s1.trace = sent ([] : List effect) :=
  prepay_duplicate_key (example_host [alice]) 2 alice carol (TOK 1000)
    { records := [example_row 2 carol bob (TOK 500) true], trace := [] }
    (example_row 2 carol bob (TOK 500) true) (by decide) (by decide) (by decide)

/-- C4: a `prepay` that ends normally extends the effects by exactly two entries, the
store of the new row and then one inline action: `transfer` on `eosio.token` with
arguments (from = buyer, to = the contract's own account, quantity = price, memo =
"prepay_for_id:" followed by the decimal digits of id), authorised as buyer@active.
So exactly one transfer is requested, after the insert; and it ends normally only if
the price was valid and positive and `id` was not yet in the store. -/
theorem prepay_sends_one_transfer (h : host) (id : Nat) (buyer seller : account_name)
    (price : asset) (s s1 : chain)
    (hok : prepay h id buyer seller price s = (.ok (), s1)) :
    s1.trace = s.trace ++
      [.db_store { id := id, from_ := buyer, to_ := seller, price := price,
                   create_time := h.current_time, payed := false },
       .send { authorization := { actor := buyer, permission := h.N "active" },
               account := h.N "eosio.token", name := h.N "transfer",
               data := { from_ := buyer, to_ := h.self, quantity := price,
                         memo := "prepay_for_id:" ++ Nat.repr id } }] ∧
    sent s1.trace = sent s.trace ++
      [{ authorization := { actor := buyer, permission := h.N "active" },
         account := h.N "eosio.token", name := h.N "transfer",
         data := { from_ := buyer, to_ := h.self, quantity := price,
                   memo := "prepay_for_id:" ++ Nat.repr id } }] ∧
    h.is_valid price = true ∧ price.amount > 0 ∧
    find_record s.records id = none ∧
    find_record s1.records id =
      some { id := id, from_ := buyer, to_ := seller, price := price,
             create_time := h.current_time, payed := false } := by
  by_cases hv : h.is_valid price = false
  · simp [prepay_eq, hv] at hok
  by_cases hp : price.amount ≤ 0
  · simp [prepay_eq, hv, hp] at hok
  by_cases hd : (find_record s.records id).isSome = true
  · simp [prepay_eq, hv, hp, hd] at hok
  have hnone : find_record s.records id = none := by simpa using hd
  have hv1 : h.is_valid price = true := by simpa using hv
  rw [prepay_ok h id buyer seller price s hnone hv1 (by omega)] at hok
  have hs := (Prod.mk.inj hok).2
  subst hs
  refine ⟨rfl, ?_, by simpa using hv, by omega, hnone, ?_⟩
  · simp [sent, List.filterMap_append, to_string]
  · exact find_record_ordered_insert_self
      { id := id, from_ := buyer, to_ := seller, price := price,
        create_time := h.current_time, payed := false } s.records hnone

/-- C4 at a concrete input: `prepay(1, alice, bob, 10.00 TOK)` on the empty store. -/
theorem prepay_sends_one_transfer_witness :
    prepay (example_host []) 1 alice bob (TOK 1000) { records := [], trace := [] } =
      (.ok (), example_after_prepay) ∧
    sent example_after_prepay.trace = sent ([] : List effect) ++
      [{ authorization := { actor := alice, permission := (example_host []).N "active" },
         account := (example_host []).N "eosio.token", name := (example_host []).N "transfer",
         data := { from_ := alice, to_ := (example_host []).self, quantity := TOK 1000,
                   memo := "prepay_for_id:" ++ Nat.repr 1 } }] :=
  ⟨by decide,
   (prepay_sends_one_transfer (example_host []) 1 alice bob (TOK 1000)
      { records := [], trace := [] } example_after_prepay (by decide)).2.1⟩

/-! ## confirm -/

theorem find_pos_le_length (rs : List item) (id : Nat) : find_pos rs id ≤ rs.length :=
  List.findIdx_le_length _

theorem find_record_none_iff_pos (rs : List item) (id : Nat) :
    find_record rs id = none ↔ find_pos rs id = rs.length := by
  have hle := find_pos_le_length rs id
  simp only [find_record, row_at, List.getElem?_eq_none_iff]
  omega

theorem find_record_set_self (rs : List item) (id : Nat) (x : item)
    (hx : x.primary_key = id) (hsome : (find_record rs id).isSome = true) :
    find_record (rs.set (find_pos rs id) x) id = some x := by
  rw [find_record_eq_find] at hsome ⊢
  induction rs with
  | nil => simp at hsome
  | cons y ys ih =>
    by_cases hy : y.primary_key = id
    · simp [find_pos, List.findIdx_cons, hy, hx]
    · have hb : (y.primary_key == id) = false := by simpa using hy
      have hys : (List.find? (fun z => z.primary_key == id) ys).isSome = true := by
        simpa [List.find?_cons, hb] using hsome
      have := ih hys
      simp only [find_pos] at this
      simp [find_pos, List.findIdx_cons, hb, List.find?_cons, this]

theorem row_at_set_self (rs : List item) (i : Nat) (x : item) (hlt : i < rs.length) :
    row_at (rs.set i x) i = some x := by
  simp [row_at, hlt]

/-- What `confirm` does, case by case, in the order the code decides. -/
theorem confirm_eq (h : host) (id : Nat) (s : chain) :
    confirm h id s =
      match find_record s.records id with
      | none => (.error .unknown_id, s)
      | some r =>
        if h.has_auth r.from_ = false then (.error (.missing_auth r.from_), s)
        else if r.payed = true then (.error (.already_payed r.id), s)
        else (.ok (),
          { records := s.records.set (find_pos s.records id) { r with payed := true },
            trace := s.trace ++
              [.db_update { r with payed := true },
               .send { authorization := { actor := h.self, permission := h.N "active" },
                       account := h.N "eosio.token", name := h.N "transfer",
                       data := { from_ := h.self, to_ := r.to_, quantity := r.price,
                                 memo := "confirm_for_id:" ++ to_string r.id } }] }) := by
  cases hf : find_record s.records id with
  | none =>
    have hpos := (find_record_none_iff_pos s.records id).1 hf
    simp [confirm, Tx.bind_apply, records_find, records_end, eosio_assert, hpos]
  | some r =>
    have hne : find_pos s.records id ≠ s.records.length := by
      intro hc
      rw [(find_record_none_iff_pos s.records id).2 hc] at hf
      cases hf
    have hlt : find_pos s.records id < s.records.length :=
      lt_of_le_of_ne (find_pos_le_length _ _) hne
    have hrow : row_at s.records (find_pos s.records id) = some r := hf
    by_cases ha : h.has_auth r.from_ = true
    · by_cases hp : r.payed = true
      · simp [confirm, Tx.bind_apply, records_find, records_end, eosio_assert, deref,
          require_auth, hne, hrow, ha, hp]
      · have hp2 : r.payed = false := by simpa using hp
        simp [confirm, Tx.bind_apply, records_find, records_end, eosio_assert, deref,
          require_auth, records_modify, send_inline, hne, hrow, ha, hp2,
          row_at_set_self _ _ _ hlt]
    · have ha2 : h.has_auth r.from_ = false := by simpa using ha
      simp [confirm, Tx.bind_apply, records_find, records_end, eosio_assert, deref,
        require_auth, hne, hrow, ha2]

/-- The normal run of `confirm`: the state it produces. -/
theorem confirm_ok (h : host) (id : Nat) (s : chain) (r : item)
    (hr : find_record s.records id = some r)
    (hauth : h.has_auth r.from_ = true) (hunpaid : r.payed = false) :
    confirm h id s =
      (.ok (),
        { records := s.records.set (find_pos s.records id) { r with payed := true },
          trace := s.trace ++
            [.db_update { r with payed := true },
             .send { authorization := { actor := h.self, permission := h.N "active" },
                     account := h.N "eosio.token", name := h.N "transfer",
                     data := { from_ := h.self, to_ := r.to_, quantity := r.price,
                               memo := "confirm_for_id:" ++ to_string r.id } }] }) := by
  rw [confirm_eq, hr]
  simp [hauth, hunpaid]

/-- The run of `confirm` on a record that is already paid. -/
theorem confirm_paid (h : host) (id : Nat) (s : chain) (r : item)
    (hr : find_record s.records id = some r)
    (hauth : h.has_auth r.from_ = true) (hpaid : r.payed = true) :
    confirm h id s = (.error (.already_payed r.id), s) := by
  rw [confirm_eq, hr]
  simp [hauth, hpaid]

theorem sent_append_db_send (t : List effect) (e : effect) (a : action)
    (he : ∀ b, e ≠ .send b) : sent (t ++ [e, .send a]) = sent t ++ [a] := by
  cases e with
  | send b => exact absurd rfl (he b)
  | db_store r => simp [sent, List.filterMap_append]
  | db_update r => simp [sent, List.filterMap_append]
  | db_remove r => simp [sent, List.filterMap_append]

/-- C5: on a store where `id` looks up to a record `r` with `payed = false`, and with
the authority of `r.from_`, `confirm(id)` ends normally; `id` then looks up to `r`
with `payed = true`; the effects grow by the update of that row followed by exactly one
inline action, the transfer (from = the contract's own account, to = `r.to_`,
quantity = `r.price`, memo = "confirm_for_id:" followed by the decimal digits of id)
on `eosio.token`, authorised as the contract's own account at `active`. -/
theorem confirm_pays_seller (h : host) (id : Nat) (s : chain) (r : item)
    (hr : find_record s.records id = some r) (hunpaid : r.payed = false)
    (hauth : h.has_auth r.from_ = true) :
    ∃ s1, confirm h id s = (.ok (), s1) ∧
      find_record s1.records id = some { r with payed := true } ∧
      s1.trace = s.trace ++
        [.db_update { r with payed := true },
         .send { authorization := { actor := h.self, permission := h.N "active" },
                 account := h.N "eosio.token", name := h.N "transfer",
                 data := { from_ := h.self, to_ := r.to_, quantity := r.price,
                           memo := "confirm_for_id:" ++ Nat.repr id } }] ∧
      sent s1.trace = sent s.trace ++
        [{ authorization := { actor := h.self, permission := h.N "active" },
           account := h.N "eosio.token", name := h.N "transfer",
           data := { from_ := h.self, to_ := r.to_, quantity := r.price,
                     memo := "confirm_for_id:" ++ Nat.repr id } }] := by
  have hid : r.id = id := find_record_key hr
  refine ⟨_, confirm_ok h id s r hr hauth hunpaid, ?_, ?_, ?_⟩
  · exact find_record_set_self s.records id { r with payed := true } hid (by simp [hr])
  · simp [to_string, hid]
  · rw [sent_append_db_send _ _ _ (by intro b hb; cases hb)]
    simp [to_string, hid]

/-- C5 at a concrete input: `confirm(1)` by `alice` after `prepay(1, alice, bob, 10.00 TOK)`. -/
theorem confirm_pays_seller_witness :
    ∃ s1, confirm (example_host [alice]) 1 example_after_prepay = (.ok (), s1) ∧
      find_record s1.records 1 =
        some { example_row 1 alice bob (TOK 1000) false with payed := true } ∧
      s1.trace = example_after_prepay.trace ++
        [.db_update { example_row 1 alice bob (TOK 1000) false with payed := true },
         .send { authorization := { actor := (example_host [alice]).self,
                                    permission := (example_host [alice]).N "active" },
                 account := (example_host [alice]).N "eosio.token",
                 name := (example_host [alice]).N "transfer",
                 data := { from_ := (example_host [alice]).self,
                           to_ := (example_row 1 alice bob (TOK 1000) false).to_,
                           quantity := (example_row 1 alice bob (TOK 1000) false).price,
                           memo := "confirm_for_id:" ++ Nat.repr 1 } }] ∧
      sent s1.trace = sent example_after_prepay.trace ++
        [{ authorization := { actor := (example_host [alice]).self,
                              permission := (example_host [alice]).N "active" },
           account := (example_host [alice]).N "eosio.token",
           name := (example_host [alice]).N "transfer",
           data := { from_ := (example_host [alice]).self,
                     to_ := (example_row 1 alice bob (TOK 1000) false).to_,
                     quantity := (example_row 1 alice bob (TOK 1000) false).price,
                     memo := "confirm_for_id:" ++ Nat.repr 1 } }] :=
  confirm_pays_seller (example_host [alice]) 1 example_after_prepay
    (example_row 1 alice bob (TOK 1000) false) (by decide) (by decide) (by decide)

/-- C6: on a store where `id` looks up to a record `r`, with the authority of
`r.from_`: if `r.payed = true`, `confirm(id)` aborts with `AlreadyPaid` and leaves the
state it was given (no write, no transfer); if `r.payed = false`, `confirm(id)` ends
normally and a second `confirm(id)` on the state it produced, under any host carrying
the buyer's authority, aborts with `AlreadyPaid` leaving that state, so the two calls
together have sent exactly one transfer, the payout of the first. -/
theorem confirm_twice_pays_once (h h2 : host) (id : Nat) (s : chain) (r : item)
    (hr : find_record s.records id = some r)
    (hauth : h.has_auth r.from_ = true) (hauth2 : h2.has_auth r.from_ = true) :
    (r.payed = true →
      ∃ e, confirm h id s = (.error e, s) ∧ e.kind = error_kind.AlreadyPaid ∧
        e = .already_payed id) ∧
    (r.payed = false →
      ∃ s1 e, confirm h id s = (.ok (), s1) ∧
        confirm h2 id s1 = (.error e, s1) ∧ e.kind = error_kind.AlreadyPaid ∧
        e = .already_payed id ∧
        sent s1.trace = sent s.trace ++
          [{ authorization := { actor := h.self, permission := h.N "active" },
             account := h.N "eosio.token", name := h.N "transfer",
             data := { from_ := h.self, to_ := r.to_, quantity := r.price,
                       memo := "confirm_for_id:" ++ Nat.repr id } }]) := by
  have hid : r.id = id := find_record_key hr
  constructor
  · intro hpaid
    exact ⟨.already_payed r.id, confirm_paid h id s r hr hauth hpaid, rfl, by rw [hid]⟩
  · intro hunpaid
    have hr1 : find_record (s.records.set (find_pos s.records id) { r with payed := true }) id
        = some { r with payed := true } :=
      find_record_set_self s.records id { r with payed := true } hid (by simp [hr])
    refine ⟨_, .already_payed r.id, confirm_ok h id s r hr hauth hunpaid, ?_, rfl,
      by rw [hid], ?_⟩
    · exact confirm_paid h2 id _ { r with payed := true } hr1 hauth2 rfl
    · rw [sent_append_db_send _ _ _ (by intro b hb; cases hb)]
      simp [to_string, hid]

/-- C6 at a concrete input: `confirm(1)` by `alice` on the state after her first
`confirm(1)`, and the two calls in a row from the state after `prepay`. -/
theorem confirm_twice_pays_once_witness :
    (∃ e, confirm (example_host [alice]) 1 example_after_confirm =
        (.error e, example_after_confirm) ∧ e.kind = error_kind.AlreadyPaid ∧
        e = .already_payed 1) ∧
    (∃ s1 e, confirm (example_host [alice]) 1 example_after_prepay = (.ok (), s1) ∧
        confirm (example_host [alice, bob]) 1 s1 = (.error e, s1) ∧
        e.kind = error_kind.AlreadyPaid ∧ e = .already_payed 1 ∧
        sent s1.trace = sent example_after_prepay.trace ++
          [{ authorization := { actor := (example_host [alice]).self,
                                permission := (example_host [alice]).N "active" },
             account := (example_host [alice]).N "eosio.token",
             name := (example_host [alice]).N "transfer",
             data := { from_ := (example_host [alice]).self,
                       to_ := (example_row 1 alice bob (TOK 1000) false).to_,
                       quantity := (example_row 1 alice bob (TOK 1000) false).price,
                       memo := "confirm_for_id:" ++ Nat.repr 1 } }]) :=
  ⟨(confirm_twice_pays_once (example_host [alice]) (example_host [alice]) 1
      example_after_confirm (example_row 1 alice bob (TOK 1000) true)
      (by decide) (by decide) (by decide)).1 (by decide),
   (confirm_twice_pays_once (example_host [alice]) (example_host [alice, bob]) 1
      example_after_prepay (example_row 1 alice bob (TOK 1000) false)
      (by decide) (by decide) (by decide)).2 (by decide)⟩

/-- C7: on a store with no record under `id`, `confirm(id)` aborts with `NotFound`
under every host (whatever authorities the action carries) and leaves the state it was
given: no write, no transfer. -/
theorem confirm_unknown_id (h : host) (id : Nat) (s : chain)
    (hnone : find_record s.records id = none) :
    ∃ e, confirm h id s = (.error e, s) ∧ e.kind = error_kind.NotFound ∧
      e = .unknown_id := by
  refine ⟨.unknown_id, ?_, rfl, rfl⟩
  rw [confirm_eq, hnone]

/-- C7 at a concrete input: `confirm(2)` when only key 1 is in the store. -/
theorem confirm_unknown_id_witness :
    ∃ e, confirm (example_host [alice, bob]) 2 example_after_prepay =
      (.error e, example_after_prepay) ∧ e.kind = error_kind.NotFound ∧ e = .unknown_id :=
  confirm_unknown_id (example_host [alice, bob]) 2 example_after_prepay (by decide)

/-- C8: on a store where `id` looks up to a record `r`, without the authority of
`r.from_`, `confirm(id)` aborts with `Unauthorized` whether `r.payed` is false or true
(the authority check comes before the already-paid check) and leaves the state it was
given: `payed` and every row are as before and no transfer is sent. -/
theorem confirm_unauthorized (h : host) (id : Nat) (s : chain) (r : item)
    (hr : find_record s.records id = some r)
    (hno : h.has_auth r.from_ = false) :
    ∃ e, confirm h id s = (.error e, s) ∧ e.kind = error_kind.Unauthorized ∧
      e = .missing_auth r.from_ := by
  refine ⟨.missing_auth r.from_, ?_, rfl, rfl⟩
  rw [confirm_eq, hr]
  simp [hno]

/-- C8 at a concrete input: `confirm(1)` by `carol` on a record of `alice` that is
already paid. -/
theorem confirm_unauthorized_witness :
    ∃ e, confirm (example_host [carol]) 1 example_after_confirm =
      (.error e, example_after_confirm) ∧ e.kind = error_kind.Unauthorized ∧
      e = .missing_auth (example_row 1 alice bob (TOK 1000) true).from_ :=
  confirm_unauthorized (example_host [carol]) 1 example_after_confirm
    (example_row 1 alice bob (TOK 1000) true) (by decide) (by decide)

/-! ## clearpayed -/

/-- The loop of `clearpayed` from position `i`: the rows before `i` stay, of the rows
from `i` on the unpaid ones stay, and each paid one is removed, in order. -/
theorem clearpayed_loop_eq (n : Nat) : ∀ (i : Nat) (s : chain), s.records.length - i = n →
    clearpayed_loop i s =
      { records := s.records.take i ++ (s.records.drop i).filter (fun r => !r.payed),
        trace := s.trace ++ ((s.records.drop i).filter (fun r => r.payed)).map effect.db_remove } := by
  induction n using Nat.strong_induction_on with
  | _ n ih =>
    intro i s hn
    rw [clearpayed_loop]
    by_cases hlt : i < s.records.length
    · have hdrop : s.records.drop i = s.records[i] :: s.records.drop (i + 1) :=
        List.drop_eq_getElem_cons hlt
      simp only [hlt, dite_true, List.get_eq_getElem]
      by_cases hp : s.records[i].payed = true
      · have herase : records_erase i s =
            (i, { records := s.records.eraseIdx i,
                  trace := s.trace ++ [.db_remove s.records[i]] }) := by
          simp [records_erase, row_at, List.getElem?_eq_getElem hlt]
        have hlen : (s.records.eraseIdx i).length = s.records.length - 1 :=
          List.length_eraseIdx_of_lt hlt
        simp only [hp, if_true, herase]
        rw [ih (s.records.length - 1 - i) (by omega) i _ (by simp [hlen])]
        have htake : (s.records.eraseIdx i).take i = s.records.take i := by
          rw [List.eraseIdx_eq_take_drop_succ]
          simp [List.take_append_eq_append_take, List.take_take, Nat.min_def, hlt.le]
        have hdrop2 : (s.records.eraseIdx i).drop i = s.records.drop (i + 1) := by
          rw [List.eraseIdx_eq_take_drop_succ]
          simp [List.drop_append_eq_append_drop, List.length_take, Nat.min_def, hlt.le]
        rw [htake, hdrop2, hdrop]
        simp [-List.getElem_cons_drop, List.filter_cons, hp]
      · have hp2 : s.records[i].payed = false := by simpa using hp
        simp only [hp2, Bool.false_eq_true, if_false]
        rw [ih (s.records.length - (i + 1)) (by omega) (i + 1) s rfl]
        have htk : s.records.take (i + 1) = s.records.take i ++ [s.records[i]] := by
          rw [List.take_succ, List.getElem?_eq_getElem hlt]
          rfl
        rw [hdrop, htk, List.filter_cons, List.filter_cons]
        simp only [hp2, Bool.not_false, if_true, Bool.false_eq_true, if_false,
          List.append_assoc, List.singleton_append]
    · have hge : s.records.length ≤ i := by omega
      simp [hlt, List.drop_eq_nil_of_le hge, List.take_of_length_le hge]

/-- What `clearpayed` does: the authority check, then the loop from `records.begin()`. -/
theorem clearpayed_eq (h : host) (s : chain) :
    clearpayed h s =
      if h.has_auth h.self = true then (.ok (), clearpayed_loop 0 s)
      else (.error (.missing_auth h.self), s) := by
  by_cases ha : h.has_auth h.self = true
  · simp [clearpayed, Tx.bind_apply, require_auth, ha]
  · have ha2 : h.has_auth h.self = false := by simpa using ha
    simp [clearpayed, Tx.bind_apply, require_auth, ha2]

/-- The normal run of `clearpayed`: the state it produces. -/
theorem clearpayed_ok (h : host) (s : chain) (hauth : h.has_auth h.self = true) :
    clearpayed h s =
      (.ok (),
        { records := s.records.filter (fun r => !r.payed),
          trace := s.trace ++ (s.records.filter (fun r => r.payed)).map effect.db_remove }) := by
  rw [clearpayed_eq, if_pos hauth, clearpayed_loop_eq (s.records.length - 0) 0 s rfl]
  simp

theorem sent_append_db_remove (t : List effect) (rs : List item) :
    sent (t ++ rs.map effect.db_remove) = sent t := by
  induction rs with
  | nil => simp
  | cons x xs ih =>
    simp only [sent, List.filterMap_append, List.map_cons, List.filterMap_cons] at ih ⊢
    simp

theorem keys_ascending_sublist {rs rs1 : List item} (hsub : rs1.Sublist rs)
    (hasc : keys_ascending rs) : keys_ascending rs1 :=
  List.Pairwise.sublist (hsub.map item.primary_key) hasc

/-- C9: with the authority of the contract's own account, `clearpayed` ends normally on
every store (the loop is a total function), and the rows it leaves are exactly the rows
of the original store with `payed = false`, unchanged and in their original order: a row
is in the result if and only if it was in the store and is unpaid, whatever its
neighbours were; ascending keys stay ascending; the only effects added are the removals
of the paid rows in order, so no transfer is sent. -/
theorem clearpayed_removes_exactly_paid (h : host) (s : chain)
    (hauth : h.has_auth h.self = true) :
    ∃ s1, clearpayed h s = (.ok (), s1) ∧
      s1.records = s.records.filter (fun r => !r.payed) ∧
      (∀ r, r ∈ s1.records ↔ r ∈ s.records ∧ r.payed = false) ∧
      s1.records.Sublist s.records ∧
      (keys_ascending s.records → keys_ascending s1.records) ∧
      s1.trace = s.trace ++ (s.records.filter (fun r => r.payed)).map effect.db_remove ∧
      sent s1.trace = sent s.trace := by
  refine ⟨_, clearpayed_ok h s hauth, rfl, ?_, ?_, ?_, rfl, ?_⟩
  · intro r
    simp [List.mem_filter]
  · exact List.filter_sublist _
  · exact keys_ascending_sublist (List.filter_sublist _)
  · exact sent_append_db_remove _ _

/-- C9 at a concrete input: six rows with keys 1 to 6, paid at 1, 2, 4 and 5 (two runs
of consecutive paid rows, one at the front), unpaid at 3 and 6. -/
theorem clearpayed_removes_exactly_paid_witness :
    List.filter (fun r => !r.payed) example_mixed.records =
      [example_row 3 alice carol (TOK 300) false, example_row 6 bob alice (TOK 600) false] ∧
    ∃ s1, clearpayed (example_host [(example_host []).self]) example_mixed = (.ok (), s1) ∧
      s1.records = example_mixed.records.filter (fun r => !r.payed) ∧
      (∀ r, r ∈ s1.records ↔ r ∈ example_mixed.records ∧ r.payed = false) ∧
      s1.records.Sublist example_mixed.records ∧
      (keys_ascending example_mixed.records → keys_ascending s1.records) ∧
      s1.trace = example_mixed.trace ++
        (example_mixed.records.filter (fun r => r.payed)).map effect.db_remove ∧
      sent s1.trace = sent example_mixed.trace :=
  ⟨by decide,
   clearpayed_removes_exactly_paid (example_host [(example_host []).self]) example_mixed
     (by decide)⟩

/-- C10: without the authority of the contract's own account, `clearpayed` aborts with
`Unauthorized` and leaves the state it was given: no row, paid or unpaid, is removed. -/
theorem clearpayed_unauthorized (h : host) (s : chain)
    (hno : h.has_auth h.self = false) :
    ∃ e, clearpayed h s = (.error e, s) ∧ e.kind = error_kind.Unauthorized ∧
      e = .missing_auth h.self := by
  refine ⟨.missing_auth h.self, ?_, rfl, rfl⟩
  rw [clearpayed_eq]
  simp [hno]

/-- C10 at a concrete input: `clearpayed` by `alice` on a store with paid and unpaid rows. -/
theorem clearpayed_unauthorized_witness :
    ∃ e, clearpayed (example_host [alice]) example_mixed = (.error e, example_mixed) ∧
      e.kind = error_kind.Unauthorized ∧ e = .missing_auth (example_host [alice]).self :=
  clearpayed_unauthorized (example_host [alice]) example_mixed (by decide)


/-! ## Lemmas on single calls -/

theorem step_prepay (h : host) (c : caller) (id : Nat) (from_ to_ : account_name)
    (price : asset) (s : chain) :
    step h s (.prepay c id from_ to_ price) =
      if h.is_valid price = true ∧ price.amount > 0 ∧ find_record s.records id = none then
        { records := ordered_insert
            { id := id, from_ := from_, to_ := to_, price := price,
              create_time := c.current_time, payed := false } s.records,
          trace := s.trace ++
            [.db_store { id := id, from_ := from_, to_ := to_, price := price,
                         create_time := c.current_time, payed := false },
             .send { authorization := { actor := from_, permission := h.N "active" },
                     account := h.N "eosio.token", name := h.N "transfer",
                     data := { from_ := from_, to_ := h.self, quantity := price,
                               memo := "prepay_for_id:" ++ to_string id } }] }
      else s := by
  simp only [step, call.run, prepay_eq, host.with_caller]
  by_cases hv : h.is_valid price = true
  · by_cases hp : price.amount > 0
    · have hp2 : ¬ price.amount ≤ 0 := by omega
      cases hf : find_record s.records id <;> simp [hv, hp, hp2]
    · have hp2 : price.amount ≤ 0 := by omega
      simp [hv, hp, hp2]
  · have hv2 : h.is_valid price = false := by simpa using hv
    simp [hv2]

theorem step_confirm (h : host) (c : caller) (id : Nat) (s : chain) :
    step h s (.confirm c id) =
      match find_record s.records id with
      | none => s
      | some r =>
        if c.has_auth r.from_ = true ∧ r.payed = false then
          { records := s.records.set (find_pos s.records id) { r with payed := true },
            trace := s.trace ++
              [.db_update { r with payed := true },
               .send { authorization := { actor := h.self, permission := h.N "active" },
                       account := h.N "eosio.token", name := h.N "transfer",
                       data := { from_ := h.self, to_ := r.to_, quantity := r.price,
                                 memo := "confirm_for_id:" ++ to_string r.id } }] }
        else s := by
  simp only [step, call.run, confirm_eq, host.with_caller]
  cases hf : find_record s.records id with
  | none => rfl
  | some r =>
    by_cases ha : c.has_auth r.from_ = true
    · by_cases hp : r.payed = true
      · simp [ha, hp]
      · have hp2 : r.payed = false := by simpa using hp
        simp [ha, hp2]
    · have ha2 : c.has_auth r.from_ = false := by simpa using ha
      simp [ha2]

theorem step_clearpayed (h : host) (c : caller) (s : chain) :
    step h s (.clearpayed c) =
      if c.has_auth h.self = true then
        { records := s.records.filter (fun r => !r.payed),
          trace := s.trace ++ (s.records.filter (fun r => r.payed)).map effect.db_remove }
      else s := by
  by_cases ha : c.has_auth h.self = true
  · have hauth : (h.with_caller c).has_auth (h.with_caller c).self = true := ha
    simp only [step, call.run, clearpayed_ok _ s hauth, ha, if_true]
  · have ha2 : (h.with_caller c).has_auth (h.with_caller c).self = false := by simpa using ha
    simp only [step, call.run, clearpayed_eq, ha2, ha, if_false, Bool.false_eq_true]

theorem run_calls_nil (h : host) (s : chain) : run_calls h s [] = s := rfl

theorem run_calls_cons (h : host) (s : chain) (c : call) (cs : List call) :
    run_calls h s (c :: cs) = run_calls h (step h s c) cs := rfl

theorem run_calls_append (h : host) (s : chain) (cs ds : List call) :
    run_calls h s (cs ++ ds) = run_calls h (run_calls h s cs) ds := by
  simp [run_calls, List.foldl_append]

/-! ## Lemmas on keys -/

theorem keys_nodup {rs : List item} (hasc : keys_ascending rs) :
    (rs.map item.primary_key).Nodup :=
  List.Pairwise.imp (fun hab => Nat.ne_of_lt hab) hasc

theorem key_unique {rs : List item} (hasc : keys_ascending rs) {a b : item}
    (ha : a ∈ rs) (hb : b ∈ rs) (hk : a.id = b.id) : a = b :=
  List.inj_on_of_nodup_map (keys_nodup hasc) ha hb hk

theorem find_record_iff_mem {rs : List item} (hasc : keys_ascending rs) (k : Nat) (r : item) :
    find_record rs k = some r ↔ r ∈ rs ∧ r.id = k := by
  constructor
  · intro hr
    exact ⟨find_record_mem hr, find_record_key hr⟩
  · rintro ⟨hmem, hk⟩
    cases hf : find_record rs k with
    | none => exact absurd hk ((find_record_none_iff rs k).1 hf r hmem)
    | some r1 =>
      have := key_unique hasc (find_record_mem hf) hmem ((find_record_key hf).trans hk.symm)
      rw [this]

theorem map_key_ordered_insert_perm (r : item) (rs : List item) :
    ((ordered_insert r rs).map item.primary_key).Perm (r.primary_key :: rs.map item.primary_key) :=
  (ordered_insert_perm r rs).map item.primary_key

theorem keys_ascending_ordered_insert (r : item) (rs : List item)
    (hasc : keys_ascending rs) (hfresh : find_record rs r.id = none) :
    keys_ascending (ordered_insert r rs) := by
  have hne := (find_record_none_iff rs r.id).1 hfresh
  induction rs with
  | nil => simp [ordered_insert, keys_ascending]
  | cons x xs ih =>
    have hx : x.id ≠ r.id := hne x (List.mem_cons_self _ _)
    have hxs : ∀ y ∈ xs, y.id ≠ r.id := fun y hy => hne y (List.mem_cons_of_mem _ hy)
    have hasc2 : keys_ascending xs := (List.pairwise_cons.1 hasc).2
    have hhead : ∀ k ∈ xs.map item.primary_key, x.primary_key < k := (List.pairwise_cons.1 hasc).1
    unfold ordered_insert
    split
    · rename_i hlt
      refine List.pairwise_cons.2 ⟨?_, hasc⟩
      intro k hk
      rcases List.mem_cons.1 hk with hk | hk
      · rw [hk]; exact hlt
      · exact lt_trans hlt (hhead k hk)
    · rename_i hnlt
      have hlt : x.primary_key < r.primary_key := by
        simp only [item.primary_key] at hnlt ⊢
        omega
      refine List.pairwise_cons.2 ⟨?_, ih hasc2 ((find_record_none_iff xs r.id).2 hxs) hxs⟩
      intro k hk
      have hk2 := (map_key_ordered_insert_perm r xs).subset hk
      rcases List.mem_cons.1 hk2 with hk2 | hk2
      · rw [hk2]; exact hlt
      · exact hhead k hk2

theorem row_at_find_pos_key {rs : List item} {id : Nat} {r : item}
    (hr : find_record rs id = some r) : r.primary_key = id := find_record_key hr

theorem map_key_set (rs : List item) (i : Nat) (x r : item)
    (hr : row_at rs i = some r) (hx : x.primary_key = r.primary_key) :
    (rs.set i x).map item.primary_key = rs.map item.primary_key := by
  induction rs generalizing i with
  | nil => rfl
  | cons y ys ih =>
    cases i with
    | zero =>
      have hy : y = r := by simpa [row_at] using hr
      simp [hx, hy]
    | succ n =>
      have hr2 : row_at ys n = some r := by simpa [row_at] using hr
      simp [ih n hr2]

theorem find_record_set_other (rs : List item) (id k : Nat) (x r : item)
    (hr : find_record rs id = some r) (hx : x.primary_key = id) (hk : k ≠ id) :
    find_record (rs.set (find_pos rs id) x) k = find_record rs k := by
  rw [find_record_eq_find, find_record_eq_find]
  rw [find_record_eq_find] at hr
  have hxk : (x.primary_key == k) = false := by
    simpa [hx] using (Ne.symm hk)
  induction rs with
  | nil => simp
  | cons y ys ih =>
    by_cases hy : y.primary_key = id
    · have hyk : (y.primary_key == k) = false := by
        simpa [hy] using (Ne.symm hk)
      have hidk : (id == k) = false := by simpa using (Ne.symm hk)
      simp [find_pos, List.findIdx_cons, hy, List.find?_cons, hxk, hidk]
    · have hb : (y.primary_key == id) = false := by simpa using hy
      have hys : List.find? (fun z => z.primary_key == id) ys = some r := by
        simpa [List.find?_cons, hb] using hr
      have := ih hys
      simp only [find_pos] at this
      simp [find_pos, List.findIdx_cons, hb, List.find?_cons, this]

theorem find_record_filter {rs : List item} (hasc : keys_ascending rs) (p : item → Bool)
    (k : Nat) : find_record (rs.filter p) k = (find_record rs k).filter p := by
  cases hf : find_record rs k with
  | none =>
    have hne := (find_record_none_iff rs k).1 hf
    simp only [Option.filter]
    exact (find_record_none_iff _ k).2 (fun r hr => hne r (List.mem_filter.1 hr).1)
  | some r =>
    have hmem := find_record_mem hf
    have hk := find_record_key hf
    by_cases hp : p r = true
    · simp only [Option.filter, hp, if_true]
      exact (find_record_iff_mem (keys_ascending_sublist (List.filter_sublist _) hasc) k r).2
        ⟨List.mem_filter.2 ⟨hmem, hp⟩, hk⟩
    · simp only [Option.filter, hp, if_false]
      refine (find_record_none_iff _ k).2 (fun r1 hr1 hk1 => ?_)
      have hr1m := List.mem_filter.1 hr1
      have := key_unique hasc hr1m.1 hmem (hk1.trans hk.symm)
      rw [this] at hr1m
      exact hp hr1m.2

theorem confirm_ok_inv (h : host) (id : Nat) (s s1 : chain)
    (hok : confirm h id s = (.ok (), s1)) :
    ∃ r, find_record s.records id = some r ∧ h.has_auth r.from_ = true ∧ r.payed = false ∧
      s1 = { records := s.records.set (find_pos s.records id) { r with payed := true },
             trace := s.trace ++
               [.db_update { r with payed := true },
                .send { authorization := { actor := h.self, permission := h.N "active" },
                        account := h.N "eosio.token", name := h.N "transfer",
                        data := { from_ := h.self, to_ := r.to_, quantity := r.price,
                                  memo := "confirm_for_id:" ++ to_string r.id } }] } := by
  cases hf : find_record s.records id with
  | none => simp [confirm_eq, hf] at hok
  | some r =>
    by_cases ha : h.has_auth r.from_ = true
    · by_cases hp : r.payed = true
      · simp [confirm_eq, hf, ha, hp] at hok
      · have hp2 : r.payed = false := by simpa using hp
        rw [confirm_ok h id s r hf ha hp2] at hok
        exact ⟨r, rfl, ha, hp2, ((Prod.mk.inj hok).2).symm⟩
    · have ha2 : h.has_auth r.from_ = false := by simpa using ha
      simp [confirm_eq, hf, ha2] at hok

theorem confirm_error_state (h : host) (id : Nat) (s s1 : chain) (e : abort)
    (herr : confirm h id s = (.error e, s1)) : s1 = s := by
  cases hf : find_record s.records id with
  | none =>
    simp only [confirm_eq, hf, Prod.mk.injEq] at herr
    exact herr.2.symm
  | some r =>
    by_cases ha : h.has_auth r.from_ = true
    · by_cases hp : r.payed = true
      · simp only [confirm_eq, hf, ha, hp, if_true, Bool.true_eq_false, if_false,
          Prod.mk.injEq] at herr
        exact herr.2.symm
      · have hp2 : r.payed = false := by simpa using hp
        rw [confirm_ok h id s r hf ha hp2] at herr
        cases (Prod.mk.inj herr).1
    · have ha2 : h.has_auth r.from_ = false := by simpa using ha
      simp only [confirm_eq, hf, ha2, if_true, Prod.mk.injEq] at herr
      exact herr.2.symm

theorem new_effects_append (s : chain) (rs : List item) (es : List effect) :
    new_effects s { records := rs, trace := s.trace ++ es } = es := by
  simp [new_effects]

theorem new_effects_self (s : chain) : new_effects s s = [] := by
  simp [new_effects]

theorem step_keys_ascending (h : host) (s : chain) (c : call)
    (hasc : keys_ascending s.records) : keys_ascending (step h s c).records := by
  cases c with
  | prepay c id from_ to_ price =>
    rw [step_prepay]
    split
    · rename_i hc
      exact keys_ascending_ordered_insert _ _ hasc hc.2.2
    · exact hasc
  | confirm c id =>
    rw [step_confirm]
    cases hf : find_record s.records id with
    | none => exact hasc
    | some r =>
      simp only
      split
      · unfold keys_ascending
        rw [map_key_set s.records (find_pos s.records id) { r with payed := true } r hf rfl]
        exact hasc
      · exact hasc
  | clearpayed c =>
    rw [step_clearpayed]
    split
    · exact keys_ascending_sublist (List.filter_sublist _) hasc
    · exact hasc

theorem run_calls_keys_ascending (h : host) (cs : List call) : ∀ (s : chain),
    keys_ascending s.records → keys_ascending (run_calls h s cs).records := by
  induction cs with
  | nil => intro s hs; exact hs
  | cons c cs ih =>
    intro s hs
    rw [run_calls_cons]
    exact ih _ (step_keys_ascending h s c hs)

theorem keys_ascending_empty : keys_ascending empty_chain.records := by
  simp [keys_ascending, empty_chain]

/-! ## Idempotence, frame and order -/

/-- C12: `clearpayed` is idempotent. With the authority of the contract's own account,
a second `clearpayed` on the state the first one left ends normally and leaves exactly
that state, so twice gives the same store as once; and on a store in which no record has
`payed = true` the first one already leaves the state it was given. -/
theorem clearpayed_idempotent (h h2 : host) (s : chain)
    (hauth : h.has_auth h.self = true) (hauth2 : h2.has_auth h2.self = true) :
    ∃ s1, clearpayed h s = (.ok (), s1) ∧ clearpayed h2 s1 = (.ok (), s1) ∧
      ((∀ r ∈ s.records, r.payed = false) → s1 = s) := by
  refine ⟨_, clearpayed_ok h s hauth, ?_, ?_⟩
  · rw [clearpayed_ok h2 _ hauth2]
    have h1 : List.filter (fun r => !r.payed) (List.filter (fun r : item => !r.payed) s.records)
        = List.filter (fun r => !r.payed) s.records := by
      simp [List.filter_filter]
    have h2 : List.filter (fun r => r.payed) (List.filter (fun r : item => !r.payed) s.records)
        = [] := by
      simp [List.filter_filter]
    simp only [h1, h2, List.map_nil, List.append_nil]
  · intro hall
    have h1 : List.filter (fun r : item => !r.payed) s.records = s.records := by
      rw [List.filter_eq_self]
      intro r hr
      simp [hall r hr]
    have h2 : List.filter (fun r : item => r.payed) s.records = [] := by
      rw [List.filter_eq_nil_iff]
      intro r hr
      simp [hall r hr]
    simp only [h1, h2, List.map_nil, List.append_nil]

/-- C12 at a concrete input: the store with paid rows at 1, 2, 4, 5 and unpaid at 3, 6. -/
theorem clearpayed_idempotent_witness :
    ∃ s1, clearpayed (example_host [(example_host []).self]) example_mixed = (.ok (), s1) ∧
      clearpayed (example_host [(example_host []).self, alice]) s1 = (.ok (), s1) ∧
      ((∀ r ∈ example_mixed.records, r.payed = false) → s1 = example_mixed) :=
  clearpayed_idempotent (example_host [(example_host []).self])
    (example_host [(example_host []).self, alice]) example_mixed (by decide) (by decide)

/-- C15: a `confirm(id)` that ends normally changes nothing in the store but the `payed`
flag of the record under `id`: that record keeps its id, from, to, price and
create_time, the rows at every other position are as before, every other key looks up as
before, the keys and the number of rows are the same; and the one transfer it sends
carries the stored `to_` and `price` of that record. -/
theorem confirm_frame (h : host) (id : Nat) (s s1 : chain)
    (hok : confirm h id s = (.ok (), s1)) :
    ∃ r, find_record s.records id = some r ∧ r.payed = false ∧
      find_record s1.records id =
        some { id := r.id, from_ := r.from_, to_ := r.to_, price := r.price,
               create_time := r.create_time, payed := true } ∧
      (∀ i, i ≠ find_pos s.records id → row_at s1.records i = row_at s.records i) ∧
      (∀ k, k ≠ id → find_record s1.records k = find_record s.records k) ∧
      s1.records.map item.primary_key = s.records.map item.primary_key ∧
      s1.records.length = s.records.length ∧
      sent s1.trace = sent s.trace ++
        [{ authorization := { actor := h.self, permission := h.N "active" },
           account := h.N "eosio.token", name := h.N "transfer",
           data := { from_ := h.self, to_ := r.to_, quantity := r.price,
                     memo := "confirm_for_id:" ++ Nat.repr id } }] := by
  obtain ⟨r, hr, _, hunpaid, hs1⟩ := confirm_ok_inv h id s s1 hok
  have hid : r.id = id := find_record_key hr
  subst hs1
  refine ⟨r, hr, hunpaid, ?_, ?_, ?_, ?_, ?_, ?_⟩
  · exact find_record_set_self s.records id { r with payed := true } hid (by simp [hr])
  · intro i hi
    simp only [row_at]
    rw [List.getElem?_set_ne (Ne.symm hi)]
  · intro k hk
    exact find_record_set_other s.records id k { r with payed := true } r hr hid hk
  · exact map_key_set s.records _ { r with payed := true } r hr rfl
  · simp
  · rw [sent_append_db_send _ _ _ (by intro b hb; cases hb)]
    simp [to_string, hid]

/-- C15 at a concrete input: `confirm(1)` by `alice` after `prepay(1, alice, bob, 10.00 TOK)`. -/
theorem confirm_frame_witness :
    ∃ r, find_record example_after_prepay.records 1 = some r ∧ r.payed = false ∧
      find_record example_after_confirm.records 1 =
        some { id := r.id, from_ := r.from_, to_ := r.to_, price := r.price,
               create_time := r.create_time, payed := true } ∧
      (∀ i, i ≠ find_pos example_after_prepay.records 1 →
        row_at example_after_confirm.records i = row_at example_after_prepay.records i) ∧
      (∀ k, k ≠ 1 → find_record example_after_confirm.records k =
        find_record example_after_prepay.records k) ∧
      example_after_confirm.records.map item.primary_key =
        example_after_prepay.records.map item.primary_key ∧
      example_after_confirm.records.length = example_after_prepay.records.length ∧
      sent example_after_confirm.trace = sent example_after_prepay.trace ++
        [{ authorization := { actor := (example_host [alice]).self,
                              permission := (example_host [alice]).N "active" },
           account := (example_host [alice]).N "eosio.token",
           name := (example_host [alice]).N "transfer",
           data := { from_ := (example_host [alice]).self, to_ := r.to_, quantity := r.price,
                     memo := "confirm_for_id:" ++ Nat.repr 1 } }] :=
  confirm_frame (example_host [alice]) 1 example_after_prepay example_after_confirm
    (by decide)

/-- One call and one key: the record under the key after the call is the record before
it, or the call is `confirm` of that key and only `payed` went from false to true. -/
theorem step_lookup (h : host) (s : chain) (c : call) (k : Nat) (r r1 : item)
    (hasc : keys_ascending s.records)
    (hb : find_record s.records k = some r)
    (ha : find_record (step h s c).records k = some r1) :
    r1 = r ∨ ((∃ c0, c = .confirm c0 k) ∧ r.payed = false ∧ r1 = { r with payed := true }) := by
  cases c with
  | prepay c id from_ to_ price =>
    rw [step_prepay] at ha
    split at ha
    · rename_i hc
      by_cases hk : k = id
      · rw [hk, hc.2.2] at hb
        cases hb
      · rw [find_record_ordered_insert_other _ _ k hk, hb] at ha
        exact Or.inl (Option.some.inj ha).symm
    · rw [hb] at ha
      exact Or.inl (Option.some.inj ha).symm
  | confirm c id =>
    rw [step_confirm] at ha
    cases hf : find_record s.records id with
    | none =>
      simp only [hf] at ha
      rw [hb] at ha
      exact Or.inl (Option.some.inj ha).symm
    | some r0 =>
      simp only [hf] at ha
      split at ha
      · rename_i hc
        by_cases hk : k = id
        · subst hk
          rw [hb] at hf
          cases hf
          have hid : r.id = k := find_record_key hb
          rw [find_record_set_self s.records k { r with payed := true } hid
            (by simp [hb])] at ha
          exact Or.inr ⟨⟨c, rfl⟩, hc.2, (Option.some.inj ha).symm⟩
        · have hid : r0.id = id := find_record_key hf
          rw [find_record_set_other s.records id k { r0 with payed := true } r0 hf
            hid hk, hb] at ha
          exact Or.inl (Option.some.inj ha).symm
      · rw [hb] at ha
        exact Or.inl (Option.some.inj ha).symm
  | clearpayed c =>
    rw [step_clearpayed] at ha
    split at ha
    · rw [find_record_filter hasc, hb] at ha
      simp only [Option.filter] at ha
      split at ha
      · exact Or.inl (Option.some.inj ha).symm
      · cases ha
    · rw [hb] at ha
      exact Or.inl (Option.some.inj ha).symm

theorem step_prices (h : host) (s : chain) (c : call)
    (hinv : ∀ r ∈ s.records, h.is_valid r.price = true ∧ r.price.amount > 0) :
    ∀ r ∈ (step h s c).records, h.is_valid r.price = true ∧ r.price.amount > 0 := by
  cases c with
  | prepay c id from_ to_ price =>
    rw [step_prepay]
    split
    · rename_i hc
      intro r hr
      rcases List.mem_cons.1 ((ordered_insert_perm _ _).subset hr) with hr | hr
      · rw [hr]
        exact ⟨hc.1, hc.2.1⟩
      · exact hinv r hr
    · exact hinv
  | confirm c id =>
    rw [step_confirm]
    cases hf : find_record s.records id with
    | none => exact hinv
    | some r0 =>
      simp only
      split
      · intro r hr
        rcases List.mem_or_eq_of_mem_set hr with hr | hr
        · exact hinv r hr
        · rw [hr]
          exact hinv r0 (find_record_mem hf)
      · exact hinv
  | clearpayed c =>
    rw [step_clearpayed]
    split
    · intro r hr
      exact hinv r (List.mem_filter.1 hr).1
    · exact hinv

theorem run_calls_prices (h : host) (cs : List call) : ∀ (s : chain),
    (∀ r ∈ s.records, h.is_valid r.price = true ∧ r.price.amount > 0) →
    ∀ r ∈ (run_calls h s cs).records, h.is_valid r.price = true ∧ r.price.amount > 0 := by
  induction cs with
  | nil => intro s hs; exact hs
  | cons c cs ih =>
    intro s hs
    rw [run_calls_cons]
    exact ih _ (step_prices h s c hs)

/-! ## Invariants of reachable stores -/

/-- C13: in every store reached from the empty store by a sequence of `prepay`,
`confirm` and `clearpayed` calls, whether they end normally or abort, every record has
a valid price of positive amount; and no call changes the price of a record: a key
that looks up to a record before and after a call has the same price in both. -/
theorem price_stays_valid_and_positive (h : host) (cs : List call) :
    (∀ r ∈ (run_calls h empty_chain cs).records,
      h.is_valid r.price = true ∧ r.price.amount > 0) ∧
    (∀ (c : call) (k : Nat) (r r1 : item),
      find_record (run_calls h empty_chain cs).records k = some r →
      find_record (step h (run_calls h empty_chain cs) c).records k = some r1 →
      r1.price = r.price) := by
  constructor
  · exact run_calls_prices h cs empty_chain (by simp [empty_chain])
  · intro c k r r1 hb ha
    have hasc := run_calls_keys_ascending h cs empty_chain keys_ascending_empty
    rcases step_lookup h _ c k r r1 hasc hb ha with hsame | ⟨_, _, hflip⟩
    · rw [hsame]
    · rw [hflip]

/-- C14: the `payed` flag is monotonic. On a store with ascending keys, for each of the
three calls with any arguments and caller and for every key that looks up to a record
both before and after the call: if `payed` was true before it is true after; and if
`payed` differs, the call is `confirm` of that key and the flag went from false to
true. -/
theorem payed_is_monotonic (h : host) (s : chain) (c : call) (k : Nat) (r r1 : item)
    (hasc : keys_ascending s.records)
    (hb : find_record s.records k = some r)
    (ha : find_record (step h s c).records k = some r1) :
    (r.payed = true → r1.payed = true) ∧
    (r1.payed ≠ r.payed →
      (∃ c0, c = .confirm c0 k) ∧ r.payed = false ∧ r1.payed = true) := by
  rcases step_lookup h s c k r r1 hasc hb ha with hsame | ⟨hc, hunpaid, hflip⟩
  · subst hsame
    exact ⟨fun hp => hp, fun hne => absurd rfl hne⟩
  · subst hflip
    exact ⟨fun _ => rfl, fun _ => ⟨hc, hunpaid, rfl⟩⟩

/-- C14 at a concrete input: `confirm(1)` by `alice` on the store after her `prepay`. -/
theorem payed_is_monotonic_witness :
    ((example_row 1 alice bob (TOK 1000) false).payed = true →
      (example_row 1 alice bob (TOK 1000) true).payed = true) ∧
    ((example_row 1 alice bob (TOK 1000) true).payed ≠
        (example_row 1 alice bob (TOK 1000) false).payed →
      (∃ c0, call.confirm (example_caller [alice]) 1 = .confirm c0 1) ∧
      (example_row 1 alice bob (TOK 1000) false).payed = false ∧
      (example_row 1 alice bob (TOK 1000) true).payed = true) :=
  payed_is_monotonic (example_host []) example_after_prepay
    (.confirm (example_caller [alice]) 1) 1
    (example_row 1 alice bob (TOK 1000) false) (example_row 1 alice bob (TOK 1000) true)
    (by decide) (by decide) (by decide)

/-- C18: in every store reached from the empty store by a sequence of `prepay`,
`confirm` and `clearpayed` calls the keys are strictly ascending in iteration order,
hence pairwise distinct; and each single call, of any of the three actions, keeps
ascending keys ascending. -/
theorem keys_stay_ascending (h : host) :
    (∀ cs, keys_ascending (run_calls h empty_chain cs).records) ∧
    (∀ cs, ((run_calls h empty_chain cs).records.map item.primary_key).Nodup) ∧
    (∀ (s : chain) (c : call), keys_ascending s.records →
      keys_ascending (step h s c).records) :=
  ⟨fun cs => run_calls_keys_ascending h cs empty_chain keys_ascending_empty,
   fun cs => keys_nodup (run_calls_keys_ascending h cs empty_chain keys_ascending_empty),
   fun s c hasc => step_keys_ascending h s c hasc⟩

/-- C13 at a concrete input: after `prepay(1, alice, bob, 10.00 TOK)`, the call
`confirm(1)` by `alice` leaves the price under key 1 as it was. -/
theorem price_stays_valid_and_positive_witness :
    (example_row 1 alice bob (TOK 1000) true).price =
      (example_row 1 alice bob (TOK 1000) false).price :=
  (price_stays_valid_and_positive (example_host [])
      [.prepay (example_caller []) 1 alice bob (TOK 1000)]).2
    (.confirm (example_caller [alice]) 1) 1
    (example_row 1 alice bob (TOK 1000) false) (example_row 1 alice bob (TOK 1000) true)
    (by decide) (by decide)

/-- C18 at a concrete input: `clearpayed` on the store with keys 1 to 6. -/
theorem keys_stay_ascending_witness :
    keys_ascending
      (step (example_host []) example_mixed
        (.clearpayed (example_caller [(example_host []).self]))).records :=
  (keys_stay_ascending (example_host [])).2.2 example_mixed
    (.clearpayed (example_caller [(example_host []).self])) (by decide)

/-- C16: in `confirm` the write of `payed = true` comes before the request of the
payout. For every run of `confirm(id)`, normal or aborted: wherever the effects it
added contain a sent action, the rows obtained by replaying the effects before it on the
store the run started from hold under `id` a record with `payed = true`; so no run
requests a payout while the record under `id` is unpaid. An aborted run adds no effect.
A normal run adds exactly the update of the row under `id`, with `payed = true`, followed
by one sent action, and replaying that update alone already gives the final rows. -/
theorem confirm_writes_before_payout (h : host) (id : Nat) (s s1 : chain)
    (res : Except abort Unit) (hrun : confirm h id s = (res, s1)) :
    (∀ pre a post, new_effects s s1 = pre ++ effect.send a :: post →
      ∃ r, find_record (replay s.records pre) id = some r ∧ r.payed = true) ∧
    (∀ e, res = .error e → new_effects s s1 = []) ∧
    (res = .ok () →
      ∃ r a, r.payed = true ∧ r.id = id ∧
        new_effects s s1 = [.db_update r, .send a] ∧
        replay s.records [.db_update r] = s1.records ∧
        find_record s1.records id = some r) := by
  cases res with
  | error e =>
    have hs1 := confirm_error_state h id s s1 e hrun
    subst hs1
    refine ⟨?_, fun _ _ => new_effects_self _, fun hc => by cases hc⟩
    intro pre a post hsplit
    rw [new_effects_self] at hsplit
    cases pre <;> cases hsplit
  | ok u =>
    obtain ⟨r, hr, _, _, hs1⟩ := confirm_ok_inv h id s s1 hrun
    have hid : r.id = id := find_record_key hr
    have hset : find_record (s.records.set (find_pos s.records id) { r with payed := true }) id
        = some { r with payed := true } :=
      find_record_set_self s.records id { r with payed := true } hid (by simp [hr])
    have hreplay : replay s.records [.db_update { r with payed := true }] =
        s.records.set (find_pos s.records id) { r with payed := true } := by
      simp [replay, apply_effect, item.primary_key, hid]
    subst hs1
    rw [new_effects_append]
    refine ⟨?_, (fun e hc => by cases hc),
      fun _ => ⟨{ r with payed := true }, _, rfl, hid, rfl, hreplay, hset⟩⟩
    intro pre a post hsplit
    cases pre with
    | nil => cases hsplit
    | cons e0 pre1 =>
      cases pre1 with
      | nil =>
        have he0 : e0 = .db_update { r with payed := true } := by
          have := (List.cons.inj hsplit).1
          exact this.symm
        rw [he0, hreplay, hset]
        exact ⟨_, rfl, rfl⟩
      | cons e1 pre2 =>
        have h2 := (List.cons.inj hsplit).2
        have h3 := (List.cons.inj h2).2
        cases pre2 <;> cases h3

/-- C16 at a concrete input: `confirm(1)` by `alice` after `prepay(1, alice, bob, 10.00 TOK)`. -/
theorem confirm_writes_before_payout_witness :
    (∀ pre a post, new_effects example_after_prepay example_after_confirm =
        pre ++ effect.send a :: post →
      ∃ r, find_record (replay example_after_prepay.records pre) 1 = some r ∧ r.payed = true) ∧
    (∀ e, (Except.ok () : Except abort Unit) = .error e →
      new_effects example_after_prepay example_after_confirm = []) ∧
    ((Except.ok () : Except abort Unit) = .ok () →
      ∃ r a, r.payed = true ∧ r.id = 1 ∧
        new_effects example_after_prepay example_after_confirm = [.db_update r, .send a] ∧
        replay example_after_prepay.records [.db_update r] = example_after_confirm.records ∧
        find_record example_after_confirm.records 1 = some r) :=
  confirm_writes_before_payout (example_host [alice]) 1 example_after_prepay
    example_after_confirm (.ok ()) (by decide)

/-- C17: `prepay` consults no authority. Two runs that differ only in the authorities
the action carries give the same result, the same rows and the same effects; in
particular, with a valid positive price and a fresh `id`, a caller without the buyer's
authority still gets the record for that buyer stored. -/
theorem prepay_ignores_authority (h : host) (auth1 auth2 : account_name → Bool)
    (id : Nat) (buyer seller : account_name) (price : asset) (s : chain) :
    prepay { h with has_auth := auth1 } id buyer seller price s =
      prepay { h with has_auth := auth2 } id buyer seller price s ∧
    (auth1 buyer = false → h.is_valid price = true → price.amount > 0 →
      find_record s.records id = none →
      ∃ s1, prepay { h with has_auth := auth1 } id buyer seller price s = (.ok (), s1) ∧
        find_record s1.records id =
          some { id := id, from_ := buyer, to_ := seller, price := price,
                 create_time := h.current_time, payed := false }) := by
  constructor
  · rw [prepay_eq, prepay_eq]
  · intro _ hvalid hpos hfresh
    refine ⟨_, prepay_ok { h with has_auth := auth1 } id buyer seller price s hfresh hvalid hpos,
      ?_⟩
    exact find_record_ordered_insert_self
      { id := id, from_ := buyer, to_ := seller, price := price,
        create_time := h.current_time, payed := false } s.records hfresh

/-- C17 at a concrete input: `prepay(1, alice, bob, 10.00 TOK)` sent with the authority
of `carol` only. -/
theorem prepay_ignores_authority_witness :
    ∃ s1, prepay { example_host [] with has_auth := fun a => a == carol } 1 alice bob (TOK 1000)
        empty_chain = (.ok (), s1) ∧
      find_record s1.records 1 =
        some { id := 1, from_ := alice, to_ := bob, price := TOK 1000,
               create_time := (example_host []).current_time, payed := false } :=
  (prepay_ignores_authority (example_host []) (fun a => a == carol) (fun a => a == alice)
      1 alice bob (TOK 1000) empty_chain).2 (by decide) (by decide) (by decide) (by decide)

/-- C20: an id becomes reusable after cleanup. On a store with ascending keys where
`id` looks up to a record with `payed = true`: `prepay(id, ...)` with a valid positive
price aborts with `DuplicateKey`; after a `clearpayed` with the contract's own authority
the same `prepay` ends normally and `id` looks up to a fresh record with `payed = false`;
a following `confirm(id)` with the new buyer's authority ends normally and sends a payout
to the new seller whose memo is "confirm_for_id:" followed by the same id. -/
theorem id_reusable_after_clearpayed (h : host) (c0 c1 c2 : caller) (s : chain) (id : Nat)
    (r : item) (buyer seller : account_name) (price : asset)
    (hasc : keys_ascending s.records)
    (hr : find_record s.records id = some r) (hpaid : r.payed = true)
    (hself : c0.has_auth h.self = true)
    (hvalid : h.is_valid price = true) (hpos : price.amount > 0)
    (hbuyer : c2.has_auth buyer = true) :
    (∃ e, prepay (h.with_caller c1) id buyer seller price s = (.error e, s) ∧
      e.kind = error_kind.DuplicateKey) ∧
    ∃ s1 s2 s3,
      clearpayed (h.with_caller c0) s = (.ok (), s1) ∧
      find_record s1.records id = none ∧
      prepay (h.with_caller c1) id buyer seller price s1 = (.ok (), s2) ∧
      find_record s2.records id =
        some { id := id, from_ := buyer, to_ := seller, price := price,
               create_time := c1.current_time, payed := false } ∧
      confirm (h.with_caller c2) id s2 = (.ok (), s3) ∧
      find_record s3.records id =
        some { id := id, from_ := buyer, to_ := seller, price := price,
               create_time := c1.current_time, payed := true } ∧
      sent s3.trace = sent s.trace ++
        [{ authorization := { actor := buyer, permission := h.N "active" },
           account := h.N "eosio.token", name := h.N "transfer",
           data := { from_ := buyer, to_ := h.self, quantity := price,
                     memo := "prepay_for_id:" ++ Nat.repr id } },
         { authorization := { actor := h.self, permission := h.N "active" },
           account := h.N "eosio.token", name := h.N "transfer",
           data := { from_ := h.self, to_ := seller, quantity := price,
                     memo := "confirm_for_id:" ++ Nat.repr id } }] := by
  have hp2 : ¬ price.amount ≤ 0 := by omega
  constructor
  · refine ⟨.duplicate_key id, ?_, rfl⟩
    rw [prepay_eq]
    have hv : (h.with_caller c1).is_valid price = true := hvalid
    simp [hv, hp2, hr]
  · have hgone : find_record (s.records.filter (fun x => !x.payed)) id = none := by
      rw [find_record_filter hasc, hr]
      simp [Option.filter, hpaid]
    have hnew : find_record
        (ordered_insert
          { id := id, from_ := buyer, to_ := seller, price := price,
            create_time := c1.current_time, payed := false }
          (s.records.filter (fun x => !x.payed))) id =
        some { id := id, from_ := buyer, to_ := seller, price := price,
               create_time := c1.current_time, payed := false } :=
      find_record_ordered_insert_self
        { id := id, from_ := buyer, to_ := seller, price := price,
          create_time := c1.current_time, payed := false } _ hgone
    refine ⟨_, _, _, clearpayed_ok (h.with_caller c0) s hself, hgone,
      prepay_ok (h.with_caller c1) id buyer seller price _ hgone hvalid hpos, hnew,
      confirm_ok (h.with_caller c2) id _ _ hnew hbuyer rfl, ?_, ?_⟩
    · exact find_record_set_self _ id _ rfl (Option.isSome_iff_exists.2 ⟨_, hnew⟩)
    · simp [sent, List.filterMap_append, to_string, host.with_caller]

/-- C20 at a concrete input: key 1 of the store with keys 1 to 6 is paid; after
`clearpayed`, `carol` prepays under key 1 again and confirms. -/
theorem id_reusable_after_clearpayed_witness :
    (∃ e, prepay ((example_host []).with_caller (example_caller [carol])) 1 carol alice
        (TOK 700) example_mixed = (.error e, example_mixed) ∧
      e.kind = error_kind.DuplicateKey) ∧
    ∃ s1 s2 s3,
      clearpayed ((example_host []).with_caller (example_caller [(example_host []).self]))
        example_mixed = (.ok (), s1) ∧
      find_record s1.records 1 = none ∧
      prepay ((example_host []).with_caller (example_caller [carol])) 1 carol alice (TOK 700)
        s1 = (.ok (), s2) ∧
      find_record s2.records 1 =
        some { id := 1, from_ := carol, to_ := alice, price := TOK 700,
               create_time := (example_caller [carol]).current_time, payed := false } ∧
      confirm ((example_host []).with_caller (example_caller [carol])) 1 s2 = (.ok (), s3) ∧
      find_record s3.records 1 =
        some { id := 1, from_ := carol, to_ := alice, price := TOK 700,
               create_time := (example_caller [carol]).current_time, payed := true } ∧
      sent s3.trace = sent example_mixed.trace ++
        [{ authorization := { actor := carol, permission := (example_host []).N "active" },
           account := (example_host []).N "eosio.token",
           name := (example_host []).N "transfer",
           data := { from_ := carol, to_ := (example_host []).self, quantity := TOK 700,
                     memo := "prepay_for_id:" ++ Nat.repr 1 } },
         { authorization := { actor := (example_host []).self,
                              permission := (example_host []).N "active" },
           account := (example_host []).N "eosio.token",
           name := (example_host []).N "transfer",
           data := { from_ := (example_host []).self, to_ := alice, quantity := TOK 700,
                     memo := "confirm_for_id:" ++ Nat.repr 1 } }] :=
  id_reusable_after_clearpayed (example_host []) (example_caller [(example_host []).self])
    (example_caller [carol]) (example_caller [carol]) example_mixed 1
    (example_row 1 alice bob (TOK 100) true) carol alice (TOK 700)
    (by decide) (by decide) (by decide) (by decide) (by decide) (by decide) (by decide)


/-! ## Escrow conservation -/

theorem escrowed_eq_sum (sym : Nat) (rs : List item) :
    escrowed sym rs =
      (rs.map (fun r => if r.payed = true then 0 else amount_in sym r.price)).sum := by
  induction rs with
  | nil => rfl
  | cons x xs ih =>
    simp only [escrowed, total_in, List.map_map] at ih
    by_cases hx : x.payed = true
    · simp [escrowed, total_in, List.filter_cons, hx, ih]
    · have hx2 : x.payed = false := by simpa using hx
      simp [escrowed, total_in, List.filter_cons, hx2, ih]

theorem escrowed_ordered_insert (sym : Nat) (r : item) (rs : List item) :
    escrowed sym (ordered_insert r rs) =
      escrowed sym rs + (if r.payed = true then 0 else amount_in sym r.price) := by
  rw [escrowed_eq_sum, escrowed_eq_sum,
    ((ordered_insert_perm r rs).map _).sum_eq, List.map_cons, List.sum_cons]
  omega

theorem escrowed_set (sym : Nat) (rs : List item) (id : Nat) (r : item)
    (hr : find_record rs id = some r) (hunpaid : r.payed = false) :
    escrowed sym (rs.set (find_pos rs id) { r with payed := true }) =
      escrowed sym rs - amount_in sym r.price := by
  rw [escrowed_eq_sum, escrowed_eq_sum]
  rw [find_record_eq_find] at hr
  induction rs with
  | nil => simp at hr
  | cons y ys ih =>
    by_cases hy : y.primary_key = id
    · have hyr : y = r := by simpa [List.find?_cons, hy] using hr
      subst hyr
      simp [find_pos, List.findIdx_cons, hy, hunpaid]
    · have hb : (y.primary_key == id) = false := by simpa using hy
      have hys : List.find? (fun z => z.primary_key == id) ys = some r := by
        simpa [List.find?_cons, hb] using hr
      have := ih hys
      simp only [find_pos] at this
      simp only [find_pos, List.findIdx_cons, hb, cond_false, List.set_cons_succ, List.map_cons,
        List.sum_cons, this]
      omega

theorem escrowed_filter_unpaid (sym : Nat) (rs : List item) :
    escrowed sym (rs.filter (fun r => !r.payed)) = escrowed sym rs := by
  simp [escrowed, List.filter_filter]

theorem escrowed_nonneg (sym : Nat) (rs : List item)
    (hpos : ∀ r ∈ rs, r.price.amount > 0) : 0 ≤ escrowed sym rs := by
  rw [escrowed_eq_sum]
  apply List.sum_nonneg
  intro x hx
  obtain ⟨r, hr, hrx⟩ := List.mem_map.1 hx
  have := hpos r hr
  rw [← hrx]
  unfold amount_in
  split
  · exact le_refl _
  · split
    · omega
    · exact le_refl _

theorem total_in_append (sym : Nat) (qs : List asset) (q : asset) :
    total_in sym (qs ++ [q]) = total_in sym qs + amount_in sym q := by
  simp [total_in]

theorem sent_quantities_db_send (s : chain) (rs : List item) (e : effect) (a : action)
    (he : ∀ b, e ≠ .send b) :
    sent_quantities s { records := rs, trace := s.trace ++ [e, .send a] } =
      [a.data.quantity] := by
  simp [sent_quantities, sent_append_db_send _ _ _ he]

theorem ledger_step_state (h : host) (l : ledger) (c : call) :
    (ledger.step h l c).state = step h l.state c := by
  unfold ledger.step step
  split <;> simp_all

theorem ledger_run_state (h : host) (cs : List call) : ∀ (l : ledger),
    (ledger.run h l cs).state = run_calls h l.state cs := by
  induction cs with
  | nil => intro l; rfl
  | cons c cs ih =>
    intro l
    show (ledger.run h (ledger.step h l c) cs).state = run_calls h (step h l.state c) cs
    rw [ih, ledger_step_state]

/-- One call keeps the balance: deposits minus payouts equals the escrowed total. -/
theorem ledger_step_balance (h : host) (l : ledger) (c : call) (sym : Nat)
    (hbal : total_in sym l.deposits - total_in sym l.payouts = escrowed sym l.state.records) :
    total_in sym (ledger.step h l c).deposits - total_in sym (ledger.step h l c).payouts =
      escrowed sym (ledger.step h l c).state.records := by
  cases c with
  | prepay c id from_ to_ price =>
    by_cases hv : h.is_valid price = true
    · by_cases hp : price.amount > 0
      · cases hf : find_record l.state.records id with
        | none =>
          have hrun := prepay_ok (h.with_caller c) id from_ to_ price l.state hf hv hp
          simp only [ledger.step, call.run, hrun]
          rw [sent_quantities_db_send _ _ _ _ (by intro b hb; cases hb), total_in_append,
            escrowed_ordered_insert]
          simp only [Bool.false_eq_true, if_false]
          omega
        | some r =>
          have hp2 : ¬ price.amount ≤ 0 := by omega
          have hv1 : (h.with_caller c).is_valid price = true := hv
          have hrun : prepay (h.with_caller c) id from_ to_ price l.state =
              (.error (.duplicate_key id), l.state) := by
            rw [prepay_eq]; simp [hv1, hp2, hf]
          simp only [ledger.step, call.run, hrun]
          exact hbal
      · have hp2 : price.amount ≤ 0 := by omega
        have hv1 : (h.with_caller c).is_valid price = true := hv
        have hrun : prepay (h.with_caller c) id from_ to_ price l.state =
            (.error .price_not_positive, l.state) := by
          rw [prepay_eq]; simp [hv1, hp2]
        simp only [ledger.step, call.run, hrun]
        exact hbal
    · have hv1 : (h.with_caller c).is_valid price = false := by simpa using hv
      have hrun : prepay (h.with_caller c) id from_ to_ price l.state =
          (.error .invalid_price, l.state) := by
        rw [prepay_eq]; simp [hv1]
      simp only [ledger.step, call.run, hrun]
      exact hbal
  | confirm c id =>
    cases hf : find_record l.state.records id with
    | none =>
      have hrun : confirm (h.with_caller c) id l.state = (.error .unknown_id, l.state) := by
        rw [confirm_eq, hf]
      simp only [ledger.step, call.run, hrun]
      exact hbal
    | some r =>
      by_cases ha : c.has_auth r.from_ = true
      · by_cases hp : r.payed = true
        · have hrun := confirm_paid (h.with_caller c) id l.state r hf ha hp
          simp only [ledger.step, call.run, hrun]
          exact hbal
        · have hp2 : r.payed = false := by simpa using hp
          have hrun := confirm_ok (h.with_caller c) id l.state r hf ha hp2
          simp only [ledger.step, call.run, hrun]
          rw [sent_quantities_db_send _ _ _ _ (by intro b hb; cases hb), total_in_append,
            escrowed_set sym _ id r hf hp2]
          dsimp only
          omega
      · have ha2 : (h.with_caller c).has_auth r.from_ = false := by simpa using ha
        have hrun : confirm (h.with_caller c) id l.state =
            (.error (.missing_auth r.from_), l.state) := by
          rw [confirm_eq, hf]; simp [ha2]
        simp only [ledger.step, call.run, hrun]
        exact hbal
  | clearpayed c =>
    by_cases ha : c.has_auth h.self = true
    · have hrun := clearpayed_ok (h.with_caller c) l.state ha
      simp only [ledger.step, call.run, hrun]
      rw [escrowed_filter_unpaid]
      exact hbal
    · have ha2 : (h.with_caller c).has_auth (h.with_caller c).self = false := by simpa using ha
      have hrun : clearpayed (h.with_caller c) l.state =
          (.error (.missing_auth (h.with_caller c).self), l.state) := by
        rw [clearpayed_eq]; simp [ha2]
      simp only [ledger.step, call.run, hrun]
      exact hbal

theorem ledger_run_balance (h : host) (sym : Nat) (cs : List call) : ∀ (l : ledger),
    total_in sym l.deposits - total_in sym l.payouts = escrowed sym l.state.records →
    total_in sym (ledger.run h l cs).deposits - total_in sym (ledger.run h l cs).payouts =
      escrowed sym (ledger.run h l cs).state.records := by
  induction cs with
  | nil => intro l hl; exact hl
  | cons c cs ih =>
    intro l hl
    exact ih _ (ledger_step_balance h l c sym hl)

/-- C19: escrow conservation. For every sequence of `prepay`, `confirm` and `clearpayed`
calls from the empty store and every currency symbol: the state of the ledger is the
state the calls leave; the total of the quantities requested as deposits by the
`prepay` calls that ended normally, minus the total requested as payouts by the
`confirm` calls that ended normally, equals the total price of the records now in the
store with `payed = false` (all sums over unbounded integers); hence the total paid out
never exceeds the total deposited. -/
theorem escrow_conservation (h : host) (cs : List call) (sym : Nat) :
    (ledger.run h empty_ledger cs).state = run_calls h empty_chain cs ∧
    total_in sym (ledger.run h empty_ledger cs).deposits -
        total_in sym (ledger.run h empty_ledger cs).payouts =
      escrowed sym (run_calls h empty_chain cs).records ∧
    total_in sym (ledger.run h empty_ledger cs).payouts ≤
      total_in sym (ledger.run h empty_ledger cs).deposits := by
  have hstate := ledger_run_state h cs empty_ledger
  have hbal := ledger_run_balance h sym cs empty_ledger
    (by simp [empty_ledger, empty_chain, total_in, escrowed])
  rw [hstate] at hbal
  have hpos := run_calls_prices h cs empty_chain (by simp [empty_chain])
  have hnn := escrowed_nonneg sym (run_calls h empty_chain cs).records
    (fun r hr => (hpos r hr).2)
  refine ⟨hstate, hbal, ?_⟩
  have hs : (empty_ledger).state = empty_chain := rfl
  rw [hs] at hbal
  omega

/-- The ledger on a concrete sequence: one deposit, then one payout. -/
theorem ledger_example :
    (ledger.run (example_host []) empty_ledger
      [.prepay (example_caller []) 1 alice bob (TOK 1000),
       .confirm (example_caller [alice]) 1]).deposits = [TOK 1000] ∧
    (ledger.run (example_host []) empty_ledger
      [.prepay (example_caller []) 1 alice bob (TOK 1000),
       .confirm (example_caller [alice]) 1]).payouts = [TOK 1000] :=
  ⟨by decide, by decide⟩

/-! ## Prepay, confirm, clear -/

theorem step_prepay_args (h : host) (p : prepay_args) (s : chain)
    (hvalid : h.is_valid p.price = true) (hpos : p.price.amount > 0)
    (hfresh : find_record s.records p.id = none) :
    (step h s p.call).records = ordered_insert p.row s.records := by
  simp only [prepay_args.call, step_prepay, hvalid, hpos, hfresh, and_self, if_true,
    prepay_args.row]

theorem run_prepays_perm (h : host) (ps : List prepay_args) : ∀ (s : chain),
    (ps.map (fun p => p.id)).Nodup →
    (∀ p ∈ ps, find_record s.records p.id = none) →
    (∀ p ∈ ps, h.is_valid p.price = true ∧ p.price.amount > 0) →
    (run_calls h s (ps.map prepay_args.call)).records.Perm
      (ps.map prepay_args.row ++ s.records) := by
  induction ps with
  | nil => intro s _ _ _; exact List.Perm.refl _
  | cons p ps ih =>
    intro s hnd hfresh hprice
    have hp := hprice p (List.mem_cons_self _ _)
    have hfp := hfresh p (List.mem_cons_self _ _)
    have hstep := step_prepay_args h p s hp.1 hp.2 hfp
    have hnd2 := List.nodup_cons.1 hnd
    rw [List.map_cons, run_calls_cons]
    have hrest : ∀ p1 ∈ ps, find_record (step h s p.call).records p1.id = none := by
      intro p1 hp1
      have hne : p1.id ≠ p.id := by
        intro hc
        exact hnd2.1 (List.mem_map.2 ⟨p1, hp1, hc⟩)
      rw [hstep, find_record_ordered_insert_other p.row s.records p1.id hne]
      exact hfresh p1 (List.mem_cons_of_mem _ hp1)
    have := ih (step h s p.call) hnd2.2 hrest
      (fun p1 hp1 => hprice p1 (List.mem_cons_of_mem _ hp1))
    rw [hstep] at this
    refine this.trans ?_
    rw [List.map_cons, List.cons_append]
    exact ((ordered_insert_perm p.row s.records).append_left _).trans List.perm_middle

theorem mark_paid_cons (id : Nat) (ids : List Nat) (r : item) :
    mark_paid ids (mark_paid [id] r) = mark_paid (id :: ids) r := by
  by_cases hr : r.id = id
  · by_cases hin : id ∈ ids <;> simp [mark_paid, hr, hin]
  · by_cases hin : r.id ∈ ids <;> simp [mark_paid, hr, hin]

theorem set_eq_map_mark_paid (rs : List item) (id : Nat) (r : item)
    (hasc : keys_ascending rs) (hr : find_record rs id = some r) :
    rs.set (find_pos rs id) { r with payed := true } = rs.map (mark_paid [id]) := by
  rw [find_record_eq_find] at hr
  induction rs with
  | nil => simp at hr
  | cons y ys ih =>
    have hasc2 : keys_ascending ys := (List.pairwise_cons.1 hasc).2
    have hhead : ∀ k ∈ ys.map item.primary_key, y.primary_key < k := (List.pairwise_cons.1 hasc).1
    by_cases hy : y.primary_key = id
    · have hyr : y = r := by simpa [List.find?_cons, hy] using hr
      subst hyr
      have hid : y.id = id := hy
      have htail2 : ys.map (mark_paid [id]) = ys := by
        have : ∀ a ∈ ys, mark_paid [id] a = (fun x : item => x) a := by
          intro a ha
          have hlt := hhead a.primary_key (List.mem_map.2 ⟨a, ha, rfl⟩)
          have hne : a.id ≠ id := by
            simp only [item.primary_key] at hlt hy
            omega
          simp [mark_paid, hne]
        rw [List.map_congr_left this]
        exact List.map_id'' (fun _ => rfl) ys
      simp [find_pos, List.findIdx_cons, hy, htail2, mark_paid, hid]
    · have hb : (y.primary_key == id) = false := by simpa using hy
      have hys : List.find? (fun z => z.primary_key == id) ys = some r := by
        simpa [List.find?_cons, hb] using hr
      have := ih hasc2 hys
      simp only [find_pos] at this
      have hne : y.id ≠ id := hy
      simp [find_pos, List.findIdx_cons, hb, this, mark_paid, hne]

theorem run_confirms_mark (h : host) (qs : List confirm_args) : ∀ (s : chain),
    keys_ascending s.records →
    (qs.map (fun q => q.id)).Nodup →
    (∀ q ∈ qs, ∃ r, find_record s.records q.id = some r ∧ r.payed = false ∧
      q.c.has_auth r.from_ = true) →
    (run_calls h s (qs.map confirm_args.call)).records =
      s.records.map (mark_paid (qs.map (fun q => q.id))) := by
  induction qs with
  | nil =>
    intro s _ _ _
    have : ∀ r : item, mark_paid [] r = r := fun r => by simp [mark_paid]
    simp only [List.map_nil, run_calls_nil]
    exact (List.map_id'' this s.records).symm
  | cons q qs ih =>
    intro s hasc hnd hall
    obtain ⟨r, hr, hunpaid, hauth⟩ := hall q (List.mem_cons_self _ _)
    have hnd2 := List.nodup_cons.1 hnd
    have hid : r.id = q.id := find_record_key hr
    have hstep : (step h s q.call).records =
        s.records.set (find_pos s.records q.id) { r with payed := true } := by
      simp only [confirm_args.call, step_confirm, hr, hauth, hunpaid, and_self, if_true]
    have hrest : ∀ q1 ∈ qs, ∃ r1, find_record (step h s q.call).records q1.id = some r1 ∧
        r1.payed = false ∧ q1.c.has_auth r1.from_ = true := by
      intro q1 hq1
      have hne : q1.id ≠ q.id := by
        intro hc
        exact hnd2.1 (List.mem_map.2 ⟨q1, hq1, hc⟩)
      obtain ⟨r1, hr1, hu1, ha1⟩ := hall q1 (List.mem_cons_of_mem _ hq1)
      refine ⟨r1, ?_, hu1, ha1⟩
      rw [hstep, find_record_set_other s.records q.id q1.id { r with payed := true } r hr hid hne]
      exact hr1
    rw [List.map_cons, run_calls_cons,
      ih (step h s q.call) (step_keys_ascending h s q.call hasc) hnd2.2 hrest, hstep,
      set_eq_map_mark_paid s.records q.id r hasc hr, List.map_map, List.map_cons]
    apply List.map_congr_left
    intro a _
    exact mark_paid_cons q.id _ a

theorem filter_unpaid_map_mark_paid (rs : List item) (ids : List Nat)
    (hunpaid : ∀ r ∈ rs, r.payed = false) :
    (rs.map (mark_paid ids)).filter (fun r => !r.payed) =
      rs.filter (fun r => decide (r.id ∉ ids)) := by
  induction rs with
  | nil => rfl
  | cons x xs ih =>
    have hx : x.payed = false := hunpaid x (List.mem_cons_self _ _)
    have ih2 := ih (fun r hr => hunpaid r (List.mem_cons_of_mem _ hr))
    by_cases hin : x.id ∈ ids
    · simp [List.filter_cons, mark_paid, hin, ih2]
    · simp [List.filter_cons, mark_paid, hin, hx, ih2]

theorem length_filter_not_mem (ps : List prepay_args) (ids : List Nat)
    (hnd : (ps.map (fun p => p.id)).Nodup) (hids : ids.Nodup)
    (hsub : ∀ k ∈ ids, k ∈ ps.map (fun p => p.id)) :
    (ps.filter (fun p => decide (p.id ∉ ids))).length = ps.length - ids.length := by
  have hsplit := List.length_eq_length_filter_add (l := ps) (fun p => decide (p.id ∈ ids))
  have hin : (ps.filter (fun p => decide (p.id ∈ ids))).length = ids.length := by
    have hmap : (ps.filter (fun p => decide (p.id ∈ ids))).map (fun p => p.id) =
        (ps.map (fun p => p.id)).filter (fun k => decide (k ∈ ids)) := by
      rw [List.filter_map]
      rfl
    have hperm : ((ps.map (fun p => p.id)).filter (fun k => decide (k ∈ ids))).Perm ids := by
      rw [List.perm_ext_iff_of_nodup (hnd.filter _) hids]
      intro k
      simp only [List.mem_filter, decide_eq_true_eq]
      exact ⟨fun hk => hk.2, fun hk => ⟨hsub k hk, hk⟩⟩
    rw [← List.length_map _ (fun p : prepay_args => p.id), hmap, hperm.length_eq]
  have hnot : (ps.filter (fun p => !decide (p.id ∈ ids))) =
      ps.filter (fun p => decide (p.id ∉ ids)) := by
    apply List.filter_congr
    intro p _
    simp
  rw [hnot] at hsplit
  omega

/-- C11: from the empty store, N `prepay` calls with pairwise distinct ids and valid
positive prices, then `confirm` calls on M distinct ones of those ids, each with the
authority of the buyer given at the `prepay` of that id, then a `clearpayed` with the
contract's own authority: the store holds exactly the rows written by the N - M
`prepay` calls whose id was not confirmed (a permutation of them, in ascending key
order), so N - M rows, each with `payed = false` and the buyer, seller and price of its
`prepay`. -/
theorem prepay_confirm_clearpayed (h : host) (ps : List prepay_args)
    (qs : List confirm_args) (c0 : caller)
    (hids : (ps.map (fun p => p.id)).Nodup)
    (hprice : ∀ p ∈ ps, h.is_valid p.price = true ∧ p.price.amount > 0)
    (hqs : (qs.map (fun q => q.id)).Nodup)
    (hbuyer : ∀ q ∈ qs, ∃ p ∈ ps, p.id = q.id ∧ q.c.has_auth p.from_ = true)
    (hself : c0.has_auth h.self = true) :
    (run_calls h empty_chain
        (ps.map prepay_args.call ++ qs.map confirm_args.call ++ [.clearpayed c0])).records.Perm
      ((ps.filter (fun p => decide (p.id ∉ qs.map (fun q => q.id)))).map prepay_args.row) ∧
    (run_calls h empty_chain
        (ps.map prepay_args.call ++ qs.map confirm_args.call ++ [.clearpayed c0])).records.length
      = ps.length - qs.length ∧
    (∀ r ∈ (run_calls h empty_chain
        (ps.map prepay_args.call ++ qs.map confirm_args.call ++ [.clearpayed c0])).records,
      r.payed = false) ∧
    keys_ascending (run_calls h empty_chain
        (ps.map prepay_args.call ++ qs.map confirm_args.call ++ [.clearpayed c0])).records := by
  have hperm1 : (run_calls h empty_chain (ps.map prepay_args.call)).records.Perm
      (ps.map prepay_args.row) := by
    have := run_prepays_perm h ps empty_chain hids (fun p _ => rfl) hprice
    simpa [empty_chain] using this
  have hasc1 := run_calls_keys_ascending h (ps.map prepay_args.call) empty_chain
    keys_ascending_empty
  have hunpaid1 : ∀ r ∈ (run_calls h empty_chain (ps.map prepay_args.call)).records,
      r.payed = false := by
    intro r hr
    obtain ⟨p, _, hp⟩ := List.mem_map.1 (hperm1.subset hr)
    rw [← hp]
    rfl
  have hall : ∀ q ∈ qs, ∃ r,
      find_record (run_calls h empty_chain (ps.map prepay_args.call)).records q.id = some r ∧
      r.payed = false ∧ q.c.has_auth r.from_ = true := by
    intro q hq
    obtain ⟨p, hp, hpid, hauth⟩ := hbuyer q hq
    refine ⟨p.row, ?_, rfl, hauth⟩
    exact (find_record_iff_mem hasc1 q.id p.row).2
      ⟨hperm1.symm.subset (List.mem_map.2 ⟨p, hp, rfl⟩), hpid⟩
  have hrecords : (run_calls h empty_chain
      (ps.map prepay_args.call ++ qs.map confirm_args.call ++ [.clearpayed c0])).records =
      (run_calls h empty_chain (ps.map prepay_args.call)).records.filter
        (fun r => decide (r.id ∉ qs.map (fun q => q.id))) := by
    rw [run_calls_append, run_calls_append, run_calls_cons, run_calls_nil, step_clearpayed,
      if_pos hself]
    simp only
    rw [run_confirms_mark h qs _ hasc1 hqs hall, filter_unpaid_map_mark_paid _ _ hunpaid1]
  have hperm : ((run_calls h empty_chain (ps.map prepay_args.call)).records.filter
      (fun r => decide (r.id ∉ qs.map (fun q => q.id)))).Perm
      ((ps.filter (fun p => decide (p.id ∉ qs.map (fun q => q.id)))).map prepay_args.row) := by
    have := hperm1.filter (fun r => decide (r.id ∉ qs.map (fun q => q.id)))
    rw [List.filter_map] at this
    exact this
  have hsub : ∀ k ∈ qs.map (fun q => q.id), k ∈ ps.map (fun p => p.id) := by
    intro k hk
    obtain ⟨q, hq, hqk⟩ := List.mem_map.1 hk
    obtain ⟨p, hp, hpid, _⟩ := hbuyer q hq
    exact List.mem_map.2 ⟨p, hp, hpid.trans hqk⟩
  rw [hrecords]
  refine ⟨hperm, ?_, ?_, ?_⟩
  · rw [hperm.length_eq, List.length_map, length_filter_not_mem ps _ hids hqs hsub,
      List.length_map]
  · intro r hr
    exact hunpaid1 r (List.mem_filter.1 hr).1
  · exact keys_ascending_sublist (List.filter_sublist _) hasc1

/-- C11 at a concrete input: `prepay(1, alice, bob, 10.00 TOK)`, `confirm(1)` by `alice`,
`clearpayed` by the contract's own account, from the empty store: the store is empty. -/
theorem prepay_confirm_clearpayed_witness :
    (run_calls (example_host []) empty_chain
      [.prepay (example_caller []) 1 alice bob (TOK 1000),
       .confirm (example_caller [alice]) 1,
       .clearpayed (example_caller [(example_host []).self])]).records = [] :=
  List.Perm.eq_nil
    (prepay_confirm_clearpayed (example_host [])
      [{ c := example_caller [], id := 1, from_ := alice, to_ := bob, price := TOK 1000 }]
      [{ c := example_caller [alice], id := 1 }]
      (example_caller [(example_host []).self])
      (by decide) (by decide) (by decide) (by decide) (by decide)).1


/-- An aborted call leaves the state it was given: every abort of the three actions
comes before the first write, so the state `step` takes is also the state after the
host has rolled the aborted action back. -/
theorem run_abort_state (h : host) (s s1 : chain) (c : call) (e : abort)
    (hrun : c.run h s = (.error e, s1)) : s1 = s := by
  cases c with
  | prepay c id from_ to_ price =>
    simp only [call.run, prepay_eq] at hrun
    split at hrun
    · exact (Prod.mk.inj hrun).2.symm
    · split at hrun
      · exact (Prod.mk.inj hrun).2.symm
      · split at hrun
        · exact (Prod.mk.inj hrun).2.symm
        · cases (Prod.mk.inj hrun).1
  | confirm c id => exact confirm_error_state _ id s s1 e hrun
  | clearpayed c =>
    simp only [call.run, clearpayed_eq] at hrun
    split at hrun
    · cases (Prod.mk.inj hrun).1
    · exact (Prod.mk.inj hrun).2.symm

end aaatrust
